import Mathlib

/-!
The expression graph of `src/lang/expr.h`.

A shallow embedding of the expression-graph builder (`Node`, `Expr` and the free
builder functions) and theorems about it.

Conventions of the embedding.

* The heap of `Node` objects is an arena: a list of nodes, a node's address being its
  position.  `std::make_shared<Node>` appends to the arena; nothing is ever freed, so two
  allocations never share an address.
* An `Expr` is its `Handle<Node>`: `none` is the empty handle, `some i` the address `i`.
* Builders are functions from the state (`Graph`: the arena and the static
  `Node::counter`) to `Except Fault` of the new state and the returned handle.
* A failing `TC_ASSERT` is `Fault.assertion`.  Dereferencing an empty handle, and indexing
  a vector out of range, have no defined behaviour in the source; the embedding reports
  them as the faults `null_handle` and `out_of_range`.
* An `int` is a 32-bit two's complement number: the conversion `(int)` of a size
  truncates, and the arithmetic on `int` (`counter++`, the product of `vv_width`) wraps
  around (`int_wrap`).  The offset of the spec-modelled `Address` is an integer.
-/

namespace Tlang

/-! ## Data model -/

/-- The enum `DataType`. -/
inductive DataType where
  | f16 | f32 | f64 | i8 | i16 | i32 | i64 | u8 | u16 | u32 | u64 | unknown
  deriving DecidableEq, Repr

/-- The enum `Node::Type`. -/
inductive NodeType where
  | mul | add | sub | div | mod | load | store | pointer | combine | index | addr
  | adapter_store | adapter_load | imm | floor | max | min | cast | land | shr | shl
  | cmp | select
  deriving DecidableEq, Repr

/-- The enum `Node::CmpType`. -/
inductive CmpType where
  | eq | ne | le | lt
  deriving DecidableEq, Repr

/-- Modelled from the spec: the external `Address` type (`address.h` is not among the
sources): an opaque value identifying the element type of a memory location and its
offset.  A default-constructed `Address` is `default`. -/
structure Address where
  kind : Nat
  offset : Int
  deriving DecidableEq, Repr, Inhabited

/-- An `Expr` is a nullable shared handle to a node: `none` is the empty handle and
`some i` references the node at address `i` of the arena. -/
abbrev Expr := Option Nat

/-- The ways a call can fail. `assertion` is a failing `TC_ASSERT`; `null_handle` is a
dereference of an empty handle, `dangling` a dereference of an address outside the arena,
`out_of_range` an unchecked vector index out of range; `out_of_fuel` is not a fault of the
program but the recursion bound of `Expr.accept` running out. -/
inductive Fault where
  | assertion | null_handle | dangling | out_of_range | out_of_fuel
  deriving DecidableEq, Repr

/-- The class `Node`. `_value` is the 8-byte immediate slot, kept as its 64-bit pattern
(the `float64` zero is the pattern 0). `num_groups_` is not initialised by the
constructors: `none` is the indeterminate value. -/
structure Node where
  _addr : Address
  ch : List Expr
  members : List Expr
  type : NodeType
  data_type : DataType
  var_name : String
  _value : Nat
  id : Int
  num_groups_ : Option Int
  is_vectorized : Bool
  name_ : String
  deriving DecidableEq, Repr

/-- The program state the builders act on: the arena of allocated nodes and the static
`Node::counter`. -/
structure Graph where
  nodes : List Node
  counter : Int
  deriving DecidableEq, Repr

/-- The state before anything is built. -/
def Graph.empty : Graph := { nodes := [], counter := 0 }

/-- Modelled from the spec: `TC_ASSERT` (a macro of `taichi/common/util.h`, not among the
sources) is a fatal, immediate fault when its condition is false. -/
def TC_ASSERT (c : Bool) : Except Fault Unit :=
  if c then .ok () else .error .assertion

/-- The dereference `e->` of a handle: the node it references. -/
def Graph.deref (g : Graph) (e : Expr) : Except Fault Node :=
  match e with
  | none => .error .null_handle
  | some i =>
    match g.nodes[i]? with
    | none => .error .dangling
    | some n => .ok n

/-- A handle is valid in a state when it references an allocated node. -/
def Graph.valid (g : Graph) (e : Expr) : Prop :=
  ∃ i n, e = some i ∧ g.nodes[i]? = some n

/-- Replace the node at address `i`. -/
def Graph.set (g : Graph) (i : Nat) (n : Node) : Graph :=
  { g with nodes := g.nodes.set i n }

/-- A write through a handle, `e->field = ...` or `e->ch.push_back(...)`: the node `e`
references is replaced by its image under `f`. -/
def Graph.write (g : Graph) (e : Expr) (f : Node → Node) : Except Fault Graph :=
  match e with
  | none => .error .null_handle
  | some i =>
    match g.nodes[i]? with
    | none => .error .dangling
    | some n => .ok (g.set i (f n))

/-- The write `value<T>() = w` of a 4-byte `T` (`int`, `CmpType`) into the 8-byte slot
`_value` through `reinterpret_cast`: the low 32 bits are replaced (little-endian layout),
the high 32 bits kept. -/
def write32 (slot : Nat) (w : Int) : Nat :=
  (slot / 2 ^ 32) * 2 ^ 32 + (w % 2 ^ 32).toNat

/-- The value an `int` takes when the integer `x` is stored in it: `x` reduced to 32 bits,
two's complement. It is `x` itself when `x` fits; past the range of `int` the arithmetic
of the source (`counter++`, the product of `vv_width`) wraps around. -/
def int_wrap (x : Int) : Int :=
  (x + 2 ^ 31) % 2 ^ 32 - 2 ^ 31

/-- The conversion `(int)` of a `size_t`: truncation to 32 bits, two's complement. -/
def int_of_size (n : Nat) : Int :=
  ((n : Int) + 2 ^ 31) % 2 ^ 32 - 2 ^ 31

/-- The underlying `int` of a `CmpType` enumerator. -/
def CmpType.to_int : CmpType → Int
  | .eq => 0
  | .ne => 1
  | .le => 2
  | .lt => 3

/-! ## Node construction -/

/-- The constructor `Node(Type type)`: `counter` is the value of `Node::counter` it
reads (the caller increments it). -/
def Node.ctor (counter : Int) (type : NodeType) : Node :=
  { _addr := default, ch := [], members := [], type := type, data_type := DataType.f32,
    var_name := "", _value := 0, id := counter, num_groups_ := none,
    is_vectorized := false, name_ := "" }

/-- The constructor `Node(Type type, Expr ch0)`. -/
def Node.ctor1 (counter : Int) (type : NodeType) (ch0 : Expr) : Node :=
  { Node.ctor counter type with ch := [ch0] }

/-- The constructor `Node(Type type, Expr ch0, Expr ch1)`. -/
def Node.ctor2 (counter : Int) (type : NodeType) (ch0 ch1 : Expr) : Node :=
  { Node.ctor counter type with ch := [ch0, ch1] }

/-- The constructor `Node(Type type, Expr ch0, Expr ch1, Expr ch2)`. -/
def Node.ctor3 (counter : Int) (type : NodeType) (ch0 ch1 ch2 : Expr) : Node :=
  { Node.ctor counter type with ch := [ch0, ch1, ch2] }

/-- The allocation `std::make_shared<Node>(...)`: run a constructor on the current
counter, increment the counter (an `int`), place the node at a fresh address and return
its handle. -/
def Graph.make_shared (g : Graph) (ctor : Int → Node) : Graph × Expr :=
  ({ nodes := g.nodes ++ [ctor g.counter], counter := int_wrap (g.counter + 1) },
   some g.nodes.length)

/-- The call `Expr::create(type)`. -/
def Expr.create0 (g : Graph) (type : NodeType) : Graph × Expr :=
  g.make_shared (fun c => Node.ctor c type)

/-- The call `Expr::create(type, ch0)`. -/
def Expr.create1 (g : Graph) (type : NodeType) (ch0 : Expr) : Graph × Expr :=
  g.make_shared (fun c => Node.ctor1 c type ch0)

/-- The call `Expr::create(type, ch0, ch1)`. -/
def Expr.create2 (g : Graph) (type : NodeType) (ch0 ch1 : Expr) : Graph × Expr :=
  g.make_shared (fun c => Node.ctor2 c type ch0 ch1)

/-- The call `Expr::create(type, ch0, ch1, ch2)`. -/
def Expr.create3 (g : Graph) (type : NodeType) (ch0 ch1 ch2 : Expr) : Graph × Expr :=
  g.make_shared (fun c => Node.ctor3 c type ch0 ch1 ch2)

/-! ## Builders of `Expr` -/

/-- The static function `Expr::load_if_pointer`. -/
def Expr.load_if_pointer (g : Graph) (e : Expr) : Except Fault (Graph × Expr) :=
  match g.deref e with
  | .error f => .error f
  | .ok n =>
    if n.type = NodeType.pointer then .ok (Expr.create1 g NodeType.load e)
    else .ok (g, e)

/-- The body of the macro `BINARY_OP(op, name)`: the operator `a op o` building a node of
opcode `name`. The source leaves the order in which the two arguments
`load_if_pointer(node)` and `load_if_pointer(o.node)` of `Expr::create` are evaluated to
the compiler; `rhs_first` selects it. -/
def Expr.binary_op (name : NodeType) (rhs_first : Bool) (g : Graph) (a o : Expr) :
    Except Fault (Graph × Expr) :=
  match g.deref a with
  | .error f => .error f
  | .ok na =>
  match g.deref o with
  | .error f => .error f
  | .ok no =>
  match TC_ASSERT (decide (na.data_type = no.data_type)) with
  | .error f => .error f
  | .ok () =>
  let args : Except Fault (Graph × Expr × Expr) :=
    if rhs_first then
      match Expr.load_if_pointer g o with
      | .error f => .error f
      | .ok (g1, o1) =>
        match Expr.load_if_pointer g1 a with
        | .error f => .error f
        | .ok (g2, a1) => .ok (g2, a1, o1)
    else
      match Expr.load_if_pointer g a with
      | .error f => .error f
      | .ok (g1, a1) =>
        match Expr.load_if_pointer g1 o with
        | .error f => .error f
        | .ok (g2, o1) => .ok (g2, a1, o1)
  match args with
  | .error f => .error f
  | .ok (g2, a1, o1) =>
    let (g3, t) := Expr.create2 g2 name a1 o1
    match g3.deref o with
    | .error f => .error f
    | .ok no3 =>
      match g3.write t (fun n => { n with data_type := no3.data_type }) with
      | .error f => .error f
      | .ok g4 => .ok (g4, t)

/-- The eight operators the macro `BINARY_OP` is instantiated for, named after the
operator symbol: `*`, `+`, `-`, `/`, `%`, `&`, `>>`, `<<`. -/
inductive BinaryOp where
  /-- The operator `*`. -/
  | times
  /-- The operator `+`. -/
  | plus
  /-- The operator `-`. -/
  | minus
  /-- The operator `/`. -/
  | divide
  /-- The operator `%`. -/
  | modulo
  /-- The operator `&`. -/
  | bit_and
  /-- The operator `>>`. -/
  | shift_right
  /-- The operator `<<`. -/
  | shift_left
  deriving DecidableEq, Repr

/-- The opcode `name` of each instance `BINARY_OP(op, name)`: `BINARY_OP(*, mul)`,
`BINARY_OP(+, add)`, `BINARY_OP(-, sub)`, `BINARY_OP(/, div)`, `BINARY_OP(%, mod)`,
`BINARY_OP(&, land)`, `BINARY_OP(>>, shr)`, `BINARY_OP(<<, shl)`. -/
def BinaryOp.name : BinaryOp → NodeType
  | .times => NodeType.mul
  | .plus => NodeType.add
  | .minus => NodeType.sub
  | .divide => NodeType.div
  | .modulo => NodeType.mod
  | .bit_and => NodeType.land
  | .shift_right => NodeType.shr
  | .shift_left => NodeType.shl

/-- The operator `a op o` for each of `* + - / % & >> <<`. -/
def BinaryOp.apply (op : BinaryOp) (rhs_first : Bool) (g : Graph) (a o : Expr) :
    Except Fault (Graph × Expr) :=
  Expr.binary_op op.name rhs_first g a o

/-- The outcome of `Expr::store`: the state and the receiver as the call leaves them, and
the returned handle or the fault that stopped the call. -/
structure StoreOutcome where
  graph : Graph
  receiver : Expr
  result : Except Fault Expr

/-- The conversion `operator void *`: the raw address `node.get()`, `none` being the null
pointer. -/
def Expr.to_void_ptr (e : Expr) : Option Nat := e

/-- The conversion `operator bool`: `node.get() != nullptr`. -/
def Expr.to_bool (e : Expr) : Bool := decide (Expr.to_void_ptr e ≠ none)

/-- The operator `==` of `Expr`: comparison of the two raw addresses. -/
def Expr.eq (a o : Expr) : Bool := decide (Expr.to_void_ptr a = Expr.to_void_ptr o)

/-- The operator `!=` of `Expr`. -/
def Expr.ne (a o : Expr) : Bool := decide (Expr.to_void_ptr a ≠ Expr.to_void_ptr o)

/-- An argument passed by reference (`const Expr &`) to a member function that may
replace the handle of its receiver: either an `Expr` object other than the receiver, given
by the handle it holds, or the receiver `*this` itself. -/
inductive Ref where
  | other (e : Expr)
  | this
  deriving DecidableEq, Repr

/-- The handle read through a reference when the receiver holds `node`. -/
def Ref.get (node : Expr) : Ref → Expr
  | .other e => e
  | .this => node

/-- The member function `Expr::store` called on the receiver `node` (the handle held by
`*this`, which the call may replace). The arguments are references and are read after the
receiver has been given its combine node. The store node is allocated before the
assertion. -/
def Expr.store (g : Graph) (node : Expr) (pointer e : Ref) : StoreOutcome :=
  let (g1, node1) :=
    if Expr.to_bool node then (g, node) else g.make_shared (fun c => Node.ctor c NodeType.combine)
  let (g2, n) := g1.make_shared (fun c => Node.ctor c NodeType.store)
  match g2.deref (pointer.get node1) with
  | .error f => ⟨g2, node1, .error f⟩
  | .ok pn =>
  match TC_ASSERT (decide (pn.type = NodeType.pointer)) with
  | .error f => ⟨g2, node1, .error f⟩
  | .ok () =>
  match g2.write n (fun m => { m with ch := m.ch ++ [pointer.get node1] }) with
  | .error f => ⟨g2, node1, .error f⟩
  | .ok g3 =>
  match g3.write n (fun m => { m with ch := m.ch ++ [e.get node1] }) with
  | .error f => ⟨g3, node1, .error f⟩
  | .ok g4 =>
  match g4.write node1 (fun m => { m with ch := m.ch ++ [n] }) with
  | .error f => ⟨g4, node1, .error f⟩
  | .ok g5 => ⟨g5, node1, .ok n⟩

/-- The static function `Expr::index`. -/
def Expr.index (g : Graph) (i : Int) : Except Fault (Graph × Expr) :=
  let (g1, e) := Expr.create0 g NodeType.index
  match g1.write e (fun n => { n with _value := write32 n._value i }) with
  | .error f => .error f
  | .ok g2 =>
    match g2.write e (fun n => { n with data_type := DataType.i32 }) with
    | .error f => .error f
    | .ok g3 => .ok (g3, e)

/-! ## Free builder functions -/

/-- The free function `cmp_ne`. -/
def cmp_ne (g : Graph) (a b : Expr) : Except Fault (Graph × Expr) :=
  let (g1, n) := Expr.create2 g NodeType.cmp a b
  match g1.write n (fun m => { m with _value := write32 m._value CmpType.ne.to_int }) with
  | .error f => .error f
  | .ok g2 => .ok (g2, n)

/-- The free function `cmp_lt`. -/
def cmp_lt (g : Graph) (a b : Expr) : Except Fault (Graph × Expr) :=
  let (g1, n) := Expr.create2 g NodeType.cmp a b
  match g1.write n (fun m => { m with _value := write32 m._value CmpType.lt.to_int }) with
  | .error f => .error f
  | .ok g2 => .ok (g2, n)

/-- The free function `placeholder`. -/
def placeholder (g : Graph) : Graph × Expr :=
  g.make_shared (fun c => Node.ctor c NodeType.addr)

/-- The free function `load`. -/
def load (g : Graph) (addr : Expr) : Except Fault (Graph × Expr) :=
  let (g1, expr) := Expr.create0 g NodeType.load
  match g1.write expr (fun n => { n with ch := n.ch ++ [addr] }) with
  | .error f => .error f
  | .ok g2 => .ok (g2, expr)

/-- The free function `select`. -/
def select (g : Graph) (mask true_val false_val : Expr) : Graph × Expr :=
  Expr.create3 g NodeType.select mask true_val false_val

/-! ## Inspection -/

/-- The member function `Node::get_address`. -/
def Node.get_address (n : Node) : Except Fault Address :=
  match TC_ASSERT (decide (n.type = NodeType.addr)) with
  | .error f => .error f
  | .ok () => .ok n._addr

/-- The member function `Node::addr`. The unchecked `ch[0]` of an empty vector is the
fault `out_of_range`. -/
def Node.addr (g : Graph) (n : Node) : Except Fault Address :=
  match TC_ASSERT (decide (n.type = NodeType.load) || decide (n.type = NodeType.store)) with
  | .error f => .error f
  | .ok () =>
  match TC_ASSERT (decide (n.ch.length ≠ 0)) with
  | .error f => .error f
  | .ok () =>
  match n.ch[0]? with
  | none => .error .out_of_range
  | some c0 =>
  match g.deref c0 with
  | .error f => .error f
  | .ok p =>
  match TC_ASSERT (decide (p.type = NodeType.pointer)) with
  | .error f => .error f
  | .ok () =>
  match p.ch[0]? with
  | none => .error .out_of_range
  | some c00 =>
  match g.deref c00 with
  | .error f => .error f
  | .ok a => a.get_address

/-- The loop of `Node::member_id` from index `i` on, with `k` iterations left
(`k = (int)members.size() - i`, so that `i < (int)members.size()` is `0 < k`). The
index `i` is below the true size whenever the loop runs, so the default of `getD` is never
read. -/
def Node.member_id_loop (members : List Expr) (expr : Expr) : Nat → Nat → Int
  | 0, _ => -1
  | k + 1, i =>
    if Expr.eq (members.getD i none) expr then (i : Int)
    else Node.member_id_loop members expr k (i + 1)

/-- The member function `Node::member_id`. -/
def Node.member_id (n : Node) (expr : Expr) : Int :=
  Node.member_id_loop n.members expr (int_of_size n.members.length).toNat 0

/-! ## Traversal -/

/-- The enum `Visitor::Order`. -/
inductive Order where
  | parent_first | child_first
  deriving DecidableEq, Repr

/-- Modelled from the spec: the external `Visitor` (`visitor.h` is not among the
sources), a traversal consumer with a fixed `order` and a `visit(Expr)` callback that
reads the graph only. Its state is the sequence of handles it has received. -/
structure Visitor where
  order : Order
  visited : List Expr
  deriving DecidableEq, Repr

/-- Modelled from the spec: the callback `Visitor::visit` receives one handle. -/
def Visitor.visit (v : Visitor) (e : Expr) : Visitor :=
  { v with visited := v.visited ++ [e] }

/-- The loop `for (auto &c : ch) c.accept(visitor)`, `rec` being the recursive call. -/
def accept_children (rec : Expr → Visitor → Except Fault Visitor) :
    List Expr → Visitor → Except Fault Visitor
  | [], v => .ok v
  | c :: cs, v =>
    match rec c v with
    | .error f => .error f
    | .ok v1 => accept_children rec cs v1

/-- The member function `Expr::accept`, with a bound `fuel` on the depth of the
recursion, since the recursion of the source need not end on a cyclic graph. -/
def Expr.accept (g : Graph) : Nat → Expr → Visitor → Except Fault Visitor
  | 0, _, _ => .error .out_of_fuel
  | fuel + 1, e, visitor =>
    let v1 := if visitor.order = Order.parent_first then visitor.visit e else visitor
    match g.deref e with
    | .error f => .error f
    | .ok n =>
      match accept_children (Expr.accept g fuel) n.ch v1 with
      | .error f => .error f
      | .ok v2 =>
        .ok (if v2.order = Order.child_first then v2.visit e else v2)


/-! ## The graph of child edges -/

/-- The children of the node at address `i` (none when nothing is allocated there). -/
def Graph.ch_of (g : Graph) (i : Nat) : List Expr :=
  match g.nodes[i]? with
  | some n => n.ch
  | none => []

/-- A child edge: the node at `i` holds a child handle that references the node at `j`. -/
def Graph.edge (g : Graph) (i j : Nat) : Prop :=
  ∃ n, g.nodes[i]? = some n ∧ some j ∈ n.ch

/-- The node at `j` is reachable from the node at `i` through zero or more child edges. -/
def Graph.reaches (g : Graph) (i j : Nat) : Prop :=
  Relation.ReflTransGen g.edge i j

/-- An acyclic graph rooted at the node at `r`: every node reachable from `r` is allocated
and holds no empty child handle, and none of them is reachable from itself through one or
more child edges. -/
def Graph.dag_from (g : Graph) (r : Nat) : Prop :=
  (∀ i, g.reaches r i → ∃ n, g.nodes[i]? = some n ∧ none ∉ n.ch) ∧
  (∀ i, g.reaches r i → ¬ Relation.TransGen g.edge i i)

/-- Every child handle of every allocated node references a node at a smaller address. -/
def Graph.children_below (g : Graph) : Bool :=
  (List.range g.nodes.length).all (fun i =>
    (g.ch_of i).all (fun c =>
      match c with
      | none => false
      | some j => decide (j < i)))

/-- From the wording of the traversal contract: the sequence a traversal of the nodes
`es`, one after the other, delivers. The sequence of a node is the node itself followed by
the full sequences of its children in child order (`parent_first`), or these sequences
followed by the node itself (`child_first`). -/
inductive Traversal (g : Graph) (ord : Order) : List Expr → List Expr → Prop
  | nil : Traversal g ord [] []
  | cons {i : Nat} {n : Node} {cs sub rest : List Expr} :
      g.nodes[i]? = some n → Traversal g ord n.ch sub → Traversal g ord cs rest →
      Traversal g ord (some i :: cs)
        ((if ord = Order.parent_first then some i :: sub else sub ++ [some i]) ++ rest)

/-- A call of one of the public builders, with its arguments; for `store` the first
argument is the receiver. -/
inductive Call where
  | create0 (type : NodeType)
  | create1 (type : NodeType) (ch0 : Expr)
  | create2 (type : NodeType) (ch0 ch1 : Expr)
  | create3 (type : NodeType) (ch0 ch1 ch2 : Expr)
  | index (i : Int)
  | placeholder
  | load (addr : Expr)
  | select (mask true_val false_val : Expr)
  | cmp_ne (a b : Expr)
  | cmp_lt (a b : Expr)
  | binary (op : BinaryOp) (rhs_first : Bool) (a b : Expr)
  | store (receiver : Expr) (pointer e : Ref)

/-- The handles a call is given. -/
def Call.args : Call → List Expr
  | .create0 _ => []
  | .create1 _ c0 => [c0]
  | .create2 _ c0 c1 => [c0, c1]
  | .create3 _ c0 c1 c2 => [c0, c1, c2]
  | .index _ => []
  | .placeholder => []
  | .load a => [a]
  | .select m t f => [m, t, f]
  | .cmp_ne a b => [a, b]
  | .cmp_lt a b => [a, b]
  | .binary _ _ a b => [a, b]
  | .store r p e => [r, p.get r, e.get r]

/-- The first child of the node `n` references a `pointer` node. -/
def Graph.first_child_pointer (g : Graph) (n : Node) : Prop :=
  ∃ c p, n.ch[0]? = some c ∧ g.deref c = .ok p ∧ p.type = NodeType.pointer

/-- Every `load` or `store` node that the state `g'` holds at an address not yet allocated
in `g` has a first child referencing a `pointer` node. -/
def Graph.new_memory_nodes_ok (g g' : Graph) : Prop :=
  ∀ (i : Nat) (n : Node), g.nodes.length ≤ i → g'.nodes[i]? = some n →
    (n.type = NodeType.load ∨ n.type = NodeType.store) → g'.first_child_pointer n

/-- The state after `x = index(0)` and `load(x)`: the load node at address 1 has the index
node at address 0 as its only child. -/
def load_index_graph : Graph :=
  { nodes := [{ Node.ctor 0 NodeType.index with data_type := DataType.i32 },
              { Node.ctor 1 NodeType.load with ch := [some 0] }],
    counter := 2 }

/-! ## Scenarios -/

/-- The calls `node.store(p_1, v_1); ...; node.store(p_k, v_k)` in sequence on one
receiver: the final state and receiver and the handles the calls returned, in call order;
a fault stops the sequence. -/
def store_all (g : Graph) (node : Expr) :
    List (Ref × Ref) → Except Fault (Graph × Expr × List Expr)
  | [] => .ok (g, node, [])
  | pv :: rest =>
    match (Expr.store g node pv.1 pv.2).result with
    | .error f => .error f
    | .ok s =>
      match store_all (Expr.store g node pv.1 pv.2).graph (Expr.store g node pv.1 pv.2).receiver
          rest with
      | .error f => .error f
      | .ok (g', node', ss) => .ok (g', node', s :: ss)

/-- The tree `add(mul(x, y), z)` over three index leaves, built by `x * y + z`: the final
state and the handles of `x`, `y`, `z`, of the `mul` node and of the `add` node. -/
def tree_example : Except Fault (Graph × Expr × Expr × Expr × Expr × Expr) := do
  let (g1, x) ← Expr.index Graph.empty 0
  let (g2, y) ← Expr.index g1 1
  let (g3, z) ← Expr.index g2 2
  let (g4, m) ← BinaryOp.times.apply false g3 x y
  let (g5, a) ← BinaryOp.plus.apply false g4 m z
  pure (g5, x, y, z, m, a)

/-- The opcode and the children of the node a handle references. -/
def Graph.shape (g : Graph) (e : Expr) : Option (NodeType × List Expr) :=
  match g.deref e with
  | .ok n => some (n.type, n.ch)
  | .error _ => none

/-- The graph of `(x * x) + (x * x)` with the product built once and used twice: the
final state and the handles of `x`, of the `mul` node and of the `add` node. -/
def shared_example : Except Fault (Graph × Expr × Expr × Expr) := do
  let (g1, x) ← Expr.index Graph.empty 0
  let (g2, m) ← BinaryOp.times.apply false g1 x x
  let (g3, a) ← BinaryOp.plus.apply false g2 m m
  pure (g3, x, m, a)

/-- The state `shared_example` ends in: `x` at address 0, the `mul` node at 1, the `add`
node at 2. -/
def shared_graph : Graph :=
  { nodes := [{ Node.ctor 0 NodeType.index with data_type := DataType.i32 },
              { Node.ctor2 1 NodeType.mul (some 0) (some 0) with data_type := DataType.i32 },
              { Node.ctor2 2 NodeType.add (some 1) (some 1) with data_type := DataType.i32 }],
    counter := 3 }

/-- The number of incoming child edges of the node at `n`: the child handles, over all
allocated nodes, that reference it. -/
def Graph.in_edges (g : Graph) (n : Nat) : Nat :=
  ((List.range g.nodes.length).map (fun p => (g.ch_of p).count (some n))).sum

/-- A state with a `pointer` node at address 0 and an `imm` node at address 1, both of the
default data type `f32`. -/
def sample_graph : Graph :=
  { nodes := [Node.ctor 0 NodeType.pointer, Node.ctor 1 NodeType.imm], counter := 2 }

/-- A state with a `pointer` node of data type `f32` at address 0 and an `index` node of
data type `i32` at address 1. -/
def mixed_graph : Graph :=
  { nodes := [Node.ctor 0 NodeType.pointer,
              { Node.ctor 1 NodeType.index with data_type := DataType.i32 }],
    counter := 2 }

/-- A node that leads a group of three members. -/
def group_node : Node :=
  { Node.ctor 3 NodeType.add with members := [some 0, some 1, some 2] }

/-! ## Adjacency of addresses -/

/-- Modelled from the spec: `Address::same_type` (of `address.h`, not among the sources)
tells whether both addresses are of the same element type. -/
def Address.same_type (a b : Address) : Bool := decide (a.kind = b.kind)

/-- The free function `prior_to(Address, Address)`; the call `offset()` reads the field
`offset`. -/
def prior_to (address1 address2 : Address) : Bool :=
  address1.same_type address2 && decide (address1.offset + 1 = address2.offset)

/-- The expression `e->ch[0]->get_address()`. -/
def Expr.first_child_address (g : Graph) (e : Expr) : Except Fault Address :=
  match g.deref e with
  | .error f => .error f
  | .ok n =>
  match n.ch[0]? with
  | none => .error .out_of_range
  | some c0 =>
  match g.deref c0 with
  | .error f => .error f
  | .ok t => t.get_address

/-- The free function `prior_to(Expr &, Expr &)`. The operator `&&` of the assertion does
not read `b` when `a` is no `pointer` node. The source leaves the order in which the two
arguments of the inner call are evaluated to the compiler; `rhs_first` selects it. -/
def prior_to_expr (rhs_first : Bool) (g : Graph) (a b : Expr) : Except Fault Bool :=
  match g.deref a with
  | .error f => .error f
  | .ok na =>
  let cond : Except Fault Bool :=
    if na.type = NodeType.pointer then
      match g.deref b with
      | .error f => .error f
      | .ok nb => .ok (decide (nb.type = NodeType.pointer))
    else .ok false
  match cond with
  | .error f => .error f
  | .ok c =>
  match TC_ASSERT c with
  | .error f => .error f
  | .ok () =>
    if rhs_first then
      match Expr.first_child_address g b with
      | .error f => .error f
      | .ok address2 =>
        match Expr.first_child_address g a with
        | .error f => .error f
        | .ok address1 => .ok (prior_to address1 address2)
    else
      match Expr.first_child_address g a with
      | .error f => .error f
      | .ok address1 =>
        match Expr.first_child_address g b with
        | .error f => .error f
        | .ok address2 => .ok (prior_to address1 address2)

/-! ## The counter of node ids -/

/-- The static function `Node::reset_counter`. -/
def Node.reset_counter (g : Graph) : Graph := { g with counter := 0 }

/-- A call of one of the four constructors of `Node`, with its arguments. -/
inductive Construction where
  | ctor (type : NodeType)
  | ctor1 (type : NodeType) (ch0 : Expr)
  | ctor2 (type : NodeType) (ch0 ch1 : Expr)
  | ctor3 (type : NodeType) (ch0 ch1 ch2 : Expr)

/-- The constructor a construction runs, as a function of the counter it reads. -/
def Construction.build : Construction → Int → Node
  | .ctor t => fun c => Node.ctor c t
  | .ctor1 t c0 => fun c => Node.ctor1 c t c0
  | .ctor2 t c0 c1 => fun c => Node.ctor2 c t c0 c1
  | .ctor3 t c0 c1 c2 => fun c => Node.ctor3 c t c0 c1 c2

/-- The constructions `ks`, one after the other: the final state and the handles of the
nodes built, in construction order. -/
def construct_all (g : Graph) : List Construction → Graph × List Expr
  | [] => (g, [])
  | k :: ks =>
    ((construct_all (g.make_shared k.build).1 ks).1,
     (g.make_shared k.build).2 :: (construct_all (g.make_shared k.build).1 ks).2)

/-- The id of the node a handle references. -/
def Graph.id_of (g : Graph) (e : Expr) : Option Int :=
  match g.deref e with
  | .ok n => some n.id
  | .error _ => none

/-! ## Vectorization width and the immediate slot -/

/-- The member function `Node::group_size`. -/
def Node.group_size (n : Node) : Int := int_of_size n.members.length

/-- The accessor `Node::num_groups` read: the value of `num_groups_`, `none` while it is
indeterminate. -/
def Node.num_groups (n : Node) : Option Int := n.num_groups_

/-- The accessor `Node::num_groups` written through: `num_groups() = v`. -/
def Node.set_num_groups (n : Node) (v : Int) : Node := { n with num_groups_ := some v }

/-- The member function `Node::vv_width`: the product of the two `int`s `group_size()` and
`num_groups()`, itself an `int`. -/
def Node.vv_width (n : Node) : Option Int :=
  match n.num_groups with
  | none => none
  | some k => some (int_wrap (n.group_size * k))

/-- The read `value<T>()` of a 4-byte `T` (`int`, `CmpType`) from the slot `_value`: its
low 32 bits as a two's complement number. -/
def read32 (slot : Nat) : Int := int_of_size (slot % 2 ^ 32)

/-- The enumerator of `CmpType` with a given underlying `int`, if there is one. -/
def CmpType.of_int (i : Int) : Option CmpType :=
  if i = 0 then some CmpType.eq
  else if i = 1 then some CmpType.ne
  else if i = 2 then some CmpType.le
  else if i = 3 then some CmpType.lt
  else none

/-- The read `value<CmpType>()` of a node. -/
def Node.value_cmp (n : Node) : Option CmpType := CmpType.of_int (read32 n._value)

/-- A node that leads a group of four members. -/
def quad_node : Node :=
  { Node.ctor 4 NodeType.add with members := [some 0, some 1, some 2, some 3] }

/-! ## Paths of child edges -/

/-- The node a path of child edges ends at: from the node at `i`, take the child at the
first position of `ks`, from there the child at the second position, and so on. The path
does not exist (`none`) when a position is out of range or the child handle there is
empty. Two paths are the same when they take the same positions. -/
def Graph.walk (g : Graph) : Nat → List Nat → Option Nat
  | i, [] => some i
  | i, k :: ks =>
    match (g.ch_of i)[k]? with
    | some (some j) => g.walk j ks
    | _ => none

/-- A visited handle references a node of the set `T`. -/
def hits (T : Nat → Bool) (e : Expr) : Bool :=
  match e with
  | some t => T t
  | none => false

/-! ## Lemmas on the arena -/

theorem deref_eq_ok {g : Graph} {e : Expr} {n : Node} :
    g.deref e = .ok n ↔ ∃ i, e = some i ∧ g.nodes[i]? = some n := by
  cases e with
  | none => simp [Graph.deref]
  | some i =>
    simp only [Graph.deref]
    cases h : g.nodes[i]? <;> simp [h]

theorem not_valid_length (g : Graph) : ¬ g.valid (some g.nodes.length) := by
  rintro ⟨i, n, h1, h2⟩
  cases h1
  simp at h2

theorem make_shared_old {g : Graph} (c : Int → Node) {i : Nat} {n : Node}
    (h : g.nodes[i]? = some n) : (g.make_shared c).1.nodes[i]? = some n := by
  have hi : i < g.nodes.length := by
    by_contra hc
    rw [List.getElem?_eq_none (by omega)] at h
    cases h
  simp [Graph.make_shared, List.getElem?_append_left hi, h]

theorem make_shared_new (g : Graph) (c : Int → Node) :
    (g.make_shared c).1.nodes[g.nodes.length]? = some (c g.counter) := by
  simp [Graph.make_shared]

theorem lt_of_get {g : Graph} {i : Nat} {n : Node} (h : g.nodes[i]? = some n) :
    i < g.nodes.length := by
  by_contra hc
  rw [List.getElem?_eq_none (by omega)] at h
  cases h


theorem deref_of_get {g : Graph} {i : Nat} {n : Node} (h : g.nodes[i]? = some n) :
    g.deref (some i) = .ok n := deref_eq_ok.2 ⟨i, rfl, h⟩

theorem make_shared_deref {g : Graph} (c : Int → Node) {e : Expr} {n : Node}
    (h : g.deref e = .ok n) : (g.make_shared c).1.deref e = .ok n := by
  obtain ⟨i, rfl, hi⟩ := deref_eq_ok.1 h
  exact deref_of_get (make_shared_old c hi)

theorem make_shared_length (g : Graph) (c : Int → Node) :
    (g.make_shared c).1.nodes.length = g.nodes.length + 1 := by
  simp [Graph.make_shared]

theorem make_shared_snd (g : Graph) (c : Int → Node) :
    (g.make_shared c).2 = some g.nodes.length := rfl

/-- What `Expr::load_if_pointer` does on a handle referencing the node `n`. -/
theorem load_if_pointer_spec {g : Graph} {e : Expr} {n : Node} (h : g.deref e = .ok n) :
    ∃ g1 e1, Expr.load_if_pointer g e = .ok (g1, e1) ∧
      (∀ (i : Nat) (m : Node), g.nodes[i]? = some m → g1.nodes[i]? = some m) ∧
      g.nodes.length ≤ g1.nodes.length ∧
      (n.type = NodeType.pointer →
        e1 = some g.nodes.length ∧ g1.nodes.length = g.nodes.length + 1 ∧
        g1.nodes[g.nodes.length]? = some (Node.ctor1 g.counter NodeType.load e)) ∧
      (n.type ≠ NodeType.pointer → e1 = e ∧ g1 = g) := by
  by_cases hp : n.type = NodeType.pointer
  · refine ⟨(Expr.create1 g NodeType.load e).1, (Expr.create1 g NodeType.load e).2, ?_, ?_, ?_, ?_, ?_⟩
    · simp [Expr.load_if_pointer, h, hp]
    · intro i m hm; exact make_shared_old _ hm
    · simp [Expr.create1, make_shared_length]
    · intro _
      exact ⟨rfl, make_shared_length _ _, make_shared_new _ _⟩
    · intro hc; exact absurd hp hc
  · refine ⟨g, e, ?_, fun _ _ hm => hm, le_refl _, fun hc => absurd hc hp, fun _ => ⟨rfl, rfl⟩⟩
    simp [Expr.load_if_pointer, h, hp]

/-- The last steps of `BINARY_OP`: allocate the node and copy the data type of `o`. -/
theorem binary_op_tail {g2 : Graph} (name : NodeType) (a1 o1 : Expr) {o : Expr} {no : Node}
    (h : g2.deref o = .ok no) :
    (match (Expr.create2 g2 name a1 o1).1.deref o with
      | .error f => (Except.error f : Except Fault (Graph × Expr))
      | .ok no3 =>
        match (Expr.create2 g2 name a1 o1).1.write (Expr.create2 g2 name a1 o1).2
            (fun n => { n with data_type := no3.data_type }) with
        | .error f => .error f
        | .ok g4 => .ok (g4, (Expr.create2 g2 name a1 o1).2)) =
    .ok (({ nodes := g2.nodes ++ [{ Node.ctor2 g2.counter name a1 o1 with
                                    data_type := no.data_type }],
            counter := int_wrap (g2.counter + 1) } : Graph), some g2.nodes.length) := by
  have h1 : (Expr.create2 g2 name a1 o1).1.deref o = .ok no := make_shared_deref _ h
  rw [h1]
  simp [Expr.create2, Graph.make_shared, Graph.write, Graph.set]

/-- On two operands of equal data type the body of `BINARY_OP` returns a node. -/
theorem binary_op_ok_of_eq (name : NodeType) (rhs_first : Bool) (g : Graph) (a b : Expr)
    (na nb : Node) (ha : g.deref a = .ok na) (hb : g.deref b = .ok nb)
    (hty : na.data_type = nb.data_type) :
    ∃ r, Expr.binary_op name rhs_first g a b = .ok r := by
  obtain ⟨ia, rfl, hia⟩ := deref_eq_ok.1 ha
  obtain ⟨ib, rfl, hib⟩ := deref_eq_ok.1 hb
  cases rhs_first
  · obtain ⟨g1, a1, h1, e1, -⟩ := load_if_pointer_spec ha
    obtain ⟨g2, b1, h2, e2, -⟩ := load_if_pointer_spec (deref_of_get (e1 _ _ hib))
    have htail := binary_op_tail name a1 b1 (deref_of_get (e2 _ _ (e1 _ _ hib)))
    refine ⟨(⟨g2.nodes ++ [{ Node.ctor2 g2.counter name a1 b1 with
      data_type := nb.data_type }], int_wrap (g2.counter + 1)⟩, some g2.nodes.length), ?_⟩
    simp only [Expr.binary_op, ha, hb, hty, TC_ASSERT, decide_True, if_true, h1, h2]
    exact htail
  · obtain ⟨g1, b1, h1, e1, -⟩ := load_if_pointer_spec hb
    obtain ⟨g2, a1, h2, e2, -⟩ := load_if_pointer_spec (deref_of_get (e1 _ _ hia))
    have htail := binary_op_tail name a1 b1 (deref_of_get (e2 _ _ (e1 _ _ hib)))
    refine ⟨(⟨g2.nodes ++ [{ Node.ctor2 g2.counter name a1 b1 with
      data_type := nb.data_type }], int_wrap (g2.counter + 1)⟩, some g2.nodes.length), ?_⟩
    simp only [Expr.binary_op, ha, hb, hty, TC_ASSERT, decide_True, if_true, h1, h2]
    exact htail

theorem binary_op_mismatch (name : NodeType) (rhs_first : Bool) (g : Graph) (a b : Expr)
    (na nb : Node) (ha : g.deref a = .ok na) (hb : g.deref b = .ok nb)
    (hty : na.data_type ≠ nb.data_type) :
    Expr.binary_op name rhs_first g a b = .error Fault.assertion := by
  simp [Expr.binary_op, ha, hb, TC_ASSERT, hty]

/-! ## Binary operators -/

/-- C1: for each of the eight operators and operands `a`, `b` referencing nodes `na`, `nb`
of equal data type, `a op b` succeeds and returns a handle `t` that was not allocated
before; the node of `t` has the operator's opcode (`mul` for `*`, `add` for `+`, `sub` for
`-`, `div` for `/`, `mod` for `%`, `land` for `&`, `shr` for `>>`, `shl` for `<<`), the
data type of `b` and the two children `a'`, `b'` in this order, where `a'` is a newly
allocated `load` node with the single child `a` when `a` is a `pointer` node and is `a`
itself otherwise, likewise `b'`; the nodes that existed before are unchanged. -/
theorem binary_op_builds (op : BinaryOp) (rhs_first : Bool) (g : Graph) (a b : Expr)
    (na nb : Node) (ha : g.deref a = .ok na) (hb : g.deref b = .ok nb)
    (hty : na.data_type = nb.data_type) :
    ∃ g' t nt a' b',
      op.apply rhs_first g a b = .ok (g', t) ∧
      ¬ g.valid t ∧ g'.deref t = .ok nt ∧
      nt.type =
        (match op with
         | .times => NodeType.mul
         | .plus => NodeType.add
         | .minus => NodeType.sub
         | .divide => NodeType.div
         | .modulo => NodeType.mod
         | .bit_and => NodeType.land
         | .shift_right => NodeType.shr
         | .shift_left => NodeType.shl) ∧
      nt.ch = [a', b'] ∧ nt.data_type = nb.data_type ∧
      (if na.type = NodeType.pointer then
        ¬ g.valid a' ∧ a' ≠ t ∧
          ∃ l, g'.deref a' = .ok l ∧ l.type = NodeType.load ∧ l.ch = [a]
       else a' = a) ∧
      (if nb.type = NodeType.pointer then
        ¬ g.valid b' ∧ b' ≠ t ∧ b' ≠ a' ∧
          ∃ l, g'.deref b' = .ok l ∧ l.type = NodeType.load ∧ l.ch = [b]
       else b' = b) ∧
      (∀ (i : Nat) (n : Node), g.nodes[i]? = some n → g'.nodes[i]? = some n) := by
  obtain ⟨ia, rfl, hia⟩ := deref_eq_ok.1 ha
  obtain ⟨ib, rfl, hib⟩ := deref_eq_ok.1 hb
  have hla := lt_of_get hia
  have hlb := lt_of_get hib
  have hnv : ∀ (G : Graph) (k : Nat), G.nodes.length ≤ k → ¬ G.valid (some k) := by
    rintro G k hk ⟨i, n, h1, h2⟩
    cases h1
    have := lt_of_get h2
    omega
  cases rhs_first
  · obtain ⟨g1, a1, h1, e1, l1, p1, q1⟩ := load_if_pointer_spec ha
    have hb1 : g1.deref (some ib) = .ok nb := deref_of_get (e1 _ _ hib)
    obtain ⟨g2, b1, h2, e2, l2, p2, q2⟩ := load_if_pointer_spec hb1
    have hb2 : g2.deref (some ib) = .ok nb := deref_of_get (e2 _ _ (e1 _ _ hib))
    have hrun : op.apply false g (some ia) (some ib) = .ok
        (({ nodes := g2.nodes ++ [{ Node.ctor2 g2.counter op.name a1 b1 with
                                    data_type := nb.data_type }],
            counter := int_wrap (g2.counter + 1) } : Graph), some g2.nodes.length) := by
      simp only [BinaryOp.apply, Expr.binary_op, ha, hb, hty, TC_ASSERT, decide_True, if_true,
        h1, h2]
      exact binary_op_tail op.name a1 b1 hb2
    have hext : ∀ (i : Nat) (n : Node), g2.nodes[i]? = some n →
        (g2.nodes ++ [{ Node.ctor2 g2.counter op.name a1 b1 with
                                    data_type := nb.data_type }])[i]? = some n := by
      intro i n hn
      rw [List.getElem?_append_left (lt_of_get hn)]; exact hn
    refine ⟨_, _, { Node.ctor2 g2.counter op.name a1 b1 with data_type := nb.data_type }, a1, b1,
      hrun, hnv _ _ (by omega), deref_of_get (by simp), by cases op <;> rfl, rfl, rfl,
      ?_, ?_, fun i n hn => hext _ _ (e2 _ _ (e1 _ _ hn))⟩
    · split
      · rename_i hp
        obtain ⟨r1, r2, r3⟩ := p1 hp
        subst r1
        refine ⟨hnv _ _ (le_refl _), ?_, _, deref_of_get (hext _ _ (e2 _ _ r3)), rfl, rfl⟩
        simp only [ne_eq, Option.some.injEq]; omega
      · rename_i hp
        exact (q1 hp).1
    · split
      · rename_i hp
        obtain ⟨r1, r2, r3⟩ := p2 hp
        subst r1
        refine ⟨hnv _ _ l1, ?_, ?_, _, deref_of_get (hext _ _ r3), rfl, rfl⟩
        · simp only [ne_eq, Option.some.injEq]; omega
        · by_cases hpa : na.type = NodeType.pointer
          · obtain ⟨s1, s2, s3⟩ := p1 hpa
            subst s1
            simp only [ne_eq, Option.some.injEq]; omega
          · obtain ⟨s1, s2⟩ := q1 hpa
            subst s1 s2
            simp only [ne_eq, Option.some.injEq]; omega
      · rename_i hp
        exact (q2 hp).1
  · obtain ⟨g1, b1, h1, e1, l1, p1, q1⟩ := load_if_pointer_spec hb
    have ha1 : g1.deref (some ia) = .ok na := deref_of_get (e1 _ _ hia)
    obtain ⟨g2, a1, h2, e2, l2, p2, q2⟩ := load_if_pointer_spec ha1
    have hb2 : g2.deref (some ib) = .ok nb := deref_of_get (e2 _ _ (e1 _ _ hib))
    have hrun : op.apply true g (some ia) (some ib) = .ok
        (({ nodes := g2.nodes ++ [{ Node.ctor2 g2.counter op.name a1 b1 with
                                    data_type := nb.data_type }],
            counter := int_wrap (g2.counter + 1) } : Graph), some g2.nodes.length) := by
      simp only [BinaryOp.apply, Expr.binary_op, ha, hb, hty, TC_ASSERT, decide_True, if_true,
        h1, h2]
      exact binary_op_tail op.name a1 b1 hb2
    have hext : ∀ (i : Nat) (n : Node), g2.nodes[i]? = some n →
        (g2.nodes ++ [{ Node.ctor2 g2.counter op.name a1 b1 with
                                    data_type := nb.data_type }])[i]? = some n := by
      intro i n hn
      rw [List.getElem?_append_left (lt_of_get hn)]; exact hn
    refine ⟨_, _, { Node.ctor2 g2.counter op.name a1 b1 with data_type := nb.data_type }, a1, b1,
      hrun, hnv _ _ (by omega), deref_of_get (by simp), by cases op <;> rfl, rfl, rfl,
      ?_, ?_, fun i n hn => hext _ _ (e2 _ _ (e1 _ _ hn))⟩
    · split
      · rename_i hp
        obtain ⟨r1, r2, r3⟩ := p2 hp
        subst r1
        refine ⟨hnv _ _ l1, ?_, _, deref_of_get (hext _ _ r3), rfl, rfl⟩
        simp only [ne_eq, Option.some.injEq]; omega
      · rename_i hp
        exact (q2 hp).1
    · split
      · rename_i hp
        obtain ⟨r1, r2, r3⟩ := p1 hp
        subst r1
        refine ⟨hnv _ _ (le_refl _), ?_, ?_, _, deref_of_get (hext _ _ (e2 _ _ r3)), rfl, rfl⟩
        · simp only [ne_eq, Option.some.injEq]; omega
        · by_cases hpa : na.type = NodeType.pointer
          · obtain ⟨s1, s2, s3⟩ := p2 hpa
            subst s1
            simp only [ne_eq, Option.some.injEq]; omega
          · obtain ⟨s1, s2⟩ := q2 hpa
            subst s1
            simp only [ne_eq, Option.some.injEq]; omega
      · rename_i hp
        exact (q1 hp).1

/-- An instance: `p + x` on a `pointer` node `p` and an `imm` node `x` of one data type. -/
theorem binary_op_builds_witness :
    sample_graph.deref (some 0) = .ok (Node.ctor 0 NodeType.pointer) ∧
    sample_graph.deref (some 1) = .ok (Node.ctor 1 NodeType.imm) ∧
    (Node.ctor 0 NodeType.pointer).data_type = (Node.ctor 1 NodeType.imm).data_type ∧
    ∃ g' t nt a' b',
      BinaryOp.plus.apply false sample_graph (some 0) (some 1) = .ok (g', t) ∧
      ¬ sample_graph.valid t ∧ g'.deref t = .ok nt ∧
      nt.type = NodeType.add ∧ nt.ch = [a', b'] ∧
      nt.data_type = (Node.ctor 1 NodeType.imm).data_type ∧
      (if (Node.ctor 0 NodeType.pointer).type = NodeType.pointer then
        ¬ sample_graph.valid a' ∧ a' ≠ t ∧
          ∃ l, g'.deref a' = .ok l ∧ l.type = NodeType.load ∧ l.ch = [some 0]
       else a' = some 0) ∧
      (if (Node.ctor 1 NodeType.imm).type = NodeType.pointer then
        ¬ sample_graph.valid b' ∧ b' ≠ t ∧ b' ≠ a' ∧
          ∃ l, g'.deref b' = .ok l ∧ l.type = NodeType.load ∧ l.ch = [some 1]
       else b' = some 1) ∧
      (∀ (i : Nat) (n : Node), sample_graph.nodes[i]? = some n → g'.nodes[i]? = some n) :=
  ⟨rfl, rfl, rfl,
    binary_op_builds BinaryOp.plus false sample_graph (some 0) (some 1) _ _ rfl rfl rfl⟩

/-- C2: for each of the eight operators and operands referencing nodes `na`, `nb`, the
call `a op b` stops on the assertion exactly when the data types differ, and returns a
node exactly when they are equal. -/
theorem binary_op_fails_iff (op : BinaryOp) (rhs_first : Bool) (g : Graph) (a b : Expr)
    (na nb : Node) (ha : g.deref a = .ok na) (hb : g.deref b = .ok nb) :
    (op.apply rhs_first g a b = .error Fault.assertion ↔ na.data_type ≠ nb.data_type) ∧
    ((∃ r, op.apply rhs_first g a b = .ok r) ↔ na.data_type = nb.data_type) := by
  by_cases hty : na.data_type = nb.data_type
  · obtain ⟨r, hrun⟩ := binary_op_ok_of_eq op.name rhs_first g a b na nb ha hb hty
    have hrun' : op.apply rhs_first g a b = .ok r := hrun
    simp [hrun', hty]
  · have hrun : op.apply rhs_first g a b = .error Fault.assertion :=
      binary_op_mismatch op.name rhs_first g a b na nb ha hb hty
    simp [hrun, hty]


/-- An instance: `p * i` on a `pointer` node of type `f32` and an `index` node of type
`i32`. -/
theorem binary_op_fails_iff_witness :
    mixed_graph.deref (some 0) = .ok (Node.ctor 0 NodeType.pointer) ∧
    mixed_graph.deref (some 1) =
      .ok { Node.ctor 1 NodeType.index with data_type := DataType.i32 } ∧
    (BinaryOp.times.apply true mixed_graph (some 0) (some 1) = .error Fault.assertion ↔
      DataType.f32 ≠ DataType.i32) ∧
    ((∃ r, BinaryOp.times.apply true mixed_graph (some 0) (some 1) = .ok r) ↔
      DataType.f32 = DataType.i32) :=
  ⟨rfl, rfl,
    binary_op_fails_iff BinaryOp.times true mixed_graph (some 0) (some 1) _ _ rfl rfl⟩

/-! ## Store -/

theorem store_nonempty {g : Graph} {r : Nat} {c pn : Node} {p : Expr} (v : Expr)
    (hr : g.nodes[r]? = some c) (hp : g.deref p = .ok pn) (hpt : pn.type = NodeType.pointer) :
    Expr.store g (some r) (Ref.other p) (Ref.other v) =
      ⟨{ nodes := (g.nodes ++ [{ Node.ctor g.counter NodeType.store with ch := [p, v] }]).set r
                    { c with ch := c.ch ++ [some g.nodes.length] },
         counter := int_wrap (g.counter + 1) }, some r, .ok (some g.nodes.length)⟩ := by
  have hlr := lt_of_get hr
  have hp2 : (g.make_shared (fun c => Node.ctor c NodeType.store)).1.deref p = .ok pn :=
    make_shared_deref _ hp
  simp only [Expr.store, Expr.to_bool, Expr.to_void_ptr, ne_eq, reduceCtorEq, not_false_eq_true,
    decide_True, if_true, Ref.get, hp2, TC_ASSERT, hpt]
  simp [Graph.make_shared, Graph.write, Graph.set, Node.ctor, List.getElem?_append_left hlr, hr,
    List.getElem?_set]

/-- On a non-empty receiver a reference to the receiver reads the receiver's handle. -/
theorem store_resolve (g : Graph) (r : Nat) (p v : Ref) :
    Expr.store g (some r) p v =
      Expr.store g (some r) (Ref.other (p.get (some r))) (Ref.other (v.get (some r))) := by
  cases p <;> cases v <;> rfl

/-- On an empty receiver `store` first makes the combine node, then goes on as on a
receiver that references it. -/
theorem store_empty (g : Graph) (p v : Ref) :
    Expr.store g none p v =
      Expr.store (g.make_shared (fun c => Node.ctor c NodeType.combine)).1
        (some g.nodes.length) (Ref.other (p.get (some g.nodes.length)))
        (Ref.other (v.get (some g.nodes.length))) := by
  cases p <;> cases v <;>
    simp [Expr.store, Expr.to_bool, Expr.to_void_ptr, Graph.make_shared, Ref.get]

theorem valid_mono {g g' : Graph} (h : g.nodes.length ≤ g'.nodes.length) {e : Expr}
    (hv : g.valid e) : g'.valid e := by
  obtain ⟨i, n, rfl, hn⟩ := hv
  have hi := lt_of_get hn
  exact ⟨i, g'.nodes[i], rfl, List.getElem?_eq_getElem (by omega)⟩

/-- Repeated `store` on a receiver that references a `combine` node appends the returned
store nodes to its children and leaves every other node as it was. -/
theorem store_all_spec (args : List (Ref × Ref)) :
    ∀ (g : Graph) (r : Nat) (c : Node), g.nodes[r]? = some c → c.type = NodeType.combine →
      (∀ pv ∈ args, ∃ n, g.deref (pv.1.get (some r)) = .ok n ∧ n.type = NodeType.pointer) →
      ∃ g' outs, store_all g (some r) args = .ok (g', some r, outs) ∧
        g'.nodes[r]? = some { c with ch := c.ch ++ outs } ∧
        g.nodes.length ≤ g'.nodes.length ∧
        (∀ (i : Nat) (n : Node), i ≠ r → g.nodes[i]? = some n → g'.nodes[i]? = some n) ∧
        List.Forall₂ (fun out pv => out ≠ some r ∧ ¬ g.valid out ∧
          ∃ s, g'.deref out = .ok s ∧ s.type = NodeType.store ∧
            s.ch = [pv.1.get (some r), pv.2.get (some r)]) outs args := by
  induction args with
  | nil =>
    intro g r c hr _ _
    exact ⟨g, [], rfl, by simpa using hr, le_refl _, fun _ _ _ h => h, List.Forall₂.nil⟩
  | cons pv rest ih =>
    intro g r c hr hc hargs
    obtain ⟨pn, hp, hpt⟩ := hargs pv (List.mem_cons_self _ _)
    have hlr := lt_of_get hr
    have hstep : Expr.store g (some r) pv.1 pv.2 = _ :=
      (store_resolve g r pv.1 pv.2).trans (store_nonempty (pv.2.get (some r)) hr hp hpt)
    set g5 : Graph := { nodes := (g.nodes ++ [{ Node.ctor g.counter NodeType.store with
                          ch := [pv.1.get (some r), pv.2.get (some r)] }]).set r
                          { c with ch := c.ch ++ [some g.nodes.length] },
                        counter := int_wrap (g.counter + 1) } with hg5
    have hlen5 : g5.nodes.length = g.nodes.length + 1 := by simp [hg5]
    have hr5 : g5.nodes[r]? = some { c with ch := c.ch ++ [some g.nodes.length] } := by
      simp [hg5, List.getElem?_set]; omega
    have hframe5 : ∀ (i : Nat) (n : Node), i ≠ r → g.nodes[i]? = some n →
        g5.nodes[i]? = some n := by
      intro i n hi hn
      have := lt_of_get hn
      simp [hg5, List.getElem?_set, Ne.symm hi, List.getElem?_append_left this, hn]
    have hnew5 : g5.nodes[g.nodes.length]? =
        some { Node.ctor g.counter NodeType.store with
          ch := [pv.1.get (some r), pv.2.get (some r)] } := by
      have : r ≠ g.nodes.length := by omega
      simp [hg5, List.getElem?_set, this]
    have hargs5 : ∀ qv ∈ rest, ∃ n, g5.deref (qv.1.get (some r)) = .ok n ∧
        n.type = NodeType.pointer := by
      intro qv hq
      obtain ⟨n, hn, hnt⟩ := hargs qv (List.mem_cons_of_mem _ hq)
      obtain ⟨i, hi, hin⟩ := deref_eq_ok.1 hn
      refine ⟨n, ?_, hnt⟩
      rw [hi]
      refine deref_of_get (hframe5 i n ?_ hin)
      rintro rfl
      rw [hr] at hin
      cases hin
      rw [hc] at hnt
      cases hnt
    obtain ⟨g', outs, hrun, hr', hlen', hframe', hall⟩ :=
      ih g5 r _ hr5 (by simpa using hc) hargs5
    refine ⟨g', some g.nodes.length :: outs, ?_, ?_, by omega, ?_, ?_⟩
    · simp only [store_all, hstep, hrun]
    · rw [hr']; simp
    · intro i n hi hn
      exact hframe' i n hi (hframe5 i n hi hn)
    · refine List.Forall₂.cons ⟨?_, not_valid_length g, _, deref_of_get (hframe' _ _ ?_ hnew5),
        rfl, rfl⟩ ?_
      · simp only [ne_eq, Option.some.injEq]; omega
      · omega
      · refine hall.imp ?_
        rintro out qv ⟨h1, h2, h3⟩
        exact ⟨h1, fun hv => h2 (valid_mono (by omega) hv), h3⟩

/-- C3: `k >= 1` calls of `store` in sequence on one initially empty receiver, each with a
pointer argument that references a `pointer` node, all succeed and leave the receiver
referencing one newly allocated `combine` node whose children are exactly the `k`
returned handles in call order; the `i`-th returned handle references a newly allocated
`store` node whose children are exactly `[p_i, v_i]` (a value argument that is the
receiver itself being read as the combine node the receiver then references). -/
theorem store_sequence_combine (g : Graph) (args : List (Ref × Ref)) (hk : args ≠ [])
    (hptr : ∀ pv ∈ args, ∃ p n, pv.1 = Ref.other p ∧ g.deref p = .ok n ∧
      n.type = NodeType.pointer) :
    ∃ g' r c outs, store_all g none args = .ok (g', some r, outs) ∧
      ¬ g.valid (some r) ∧ g'.nodes[r]? = some c ∧ c.type = NodeType.combine ∧
      c.ch = outs ∧ outs.length = args.length ∧
      List.Forall₂ (fun out pv => out ≠ some r ∧ ¬ g.valid out ∧
          ∃ s, g'.deref out = .ok s ∧ s.type = NodeType.store ∧
            s.ch = [pv.1.get (some r), pv.2.get (some r)])
        outs args := by
  cases args with
  | nil => exact absurd rfl hk
  | cons pv rest =>
    have hargs1 : ∀ qv ∈ pv :: rest, ∃ n,
        (g.make_shared (fun c => Node.ctor c NodeType.combine)).1.deref
            (qv.1.get (some g.nodes.length)) = .ok n ∧
          n.type = NodeType.pointer := by
      intro qv hq
      obtain ⟨p, n, hp, hn, hnt⟩ := hptr qv hq
      rw [hp]
      exact ⟨n, make_shared_deref _ hn, hnt⟩
    obtain ⟨g', outs, hrun, hr', hlen', hframe', hall⟩ :=
      store_all_spec (pv :: rest) _ g.nodes.length _ (make_shared_new g _) rfl hargs1
    refine ⟨g', g.nodes.length, _, outs, ?_, not_valid_length g, hr', rfl, by simp [Node.ctor],
      hall.length_eq, ?_⟩
    · rw [← hrun]
      simp only [store_all]
      rw [store_empty, ← store_resolve]
    · refine hall.imp ?_
      rintro out qv ⟨h1, h2, h3⟩
      exact ⟨h1, fun hv => h2 (valid_mono (by simp [Graph.make_shared]) hv), h3⟩

/-- The case of two calls: `r.store(p, i); r.store(p, r)` on an empty `r`; the value
argument of the second call is the receiver itself. -/
theorem store_sequence_combine_witness :
    [(Ref.other (some 0), Ref.other (some 1)), (Ref.other (some 0), Ref.this)] ≠ [] ∧
    (∀ pv ∈ [(Ref.other (some 0), Ref.other (some 1)), (Ref.other (some 0), Ref.this)],
      ∃ p n, pv.1 = Ref.other p ∧ mixed_graph.deref p = .ok n ∧ n.type = NodeType.pointer) ∧
    ∃ g' r c outs,
      store_all mixed_graph none
        [(Ref.other (some 0), Ref.other (some 1)), (Ref.other (some 0), Ref.this)] =
          .ok (g', some r, outs) ∧
      ¬ mixed_graph.valid (some r) ∧ g'.nodes[r]? = some c ∧ c.type = NodeType.combine ∧
      c.ch = outs ∧ outs.length = 2 ∧
      List.Forall₂ (fun out pv => out ≠ some r ∧ ¬ mixed_graph.valid out ∧
          ∃ s, g'.deref out = .ok s ∧ s.type = NodeType.store ∧
            s.ch = [pv.1.get (some r), pv.2.get (some r)])
        outs [(Ref.other (some 0), Ref.other (some 1)), (Ref.other (some 0), Ref.this)] :=
  have hptr : ∀ pv ∈ [(Ref.other (some 0), Ref.other (some 1)), (Ref.other (some 0), Ref.this)],
      ∃ p n, pv.1 = Ref.other p ∧ mixed_graph.deref p = .ok n ∧ n.type = NodeType.pointer := by
    intro pv hpv
    simp only [List.mem_cons, List.mem_singleton, List.not_mem_nil, or_false] at hpv
    rcases hpv with rfl | rfl <;> exact ⟨_, _, rfl, rfl, rfl⟩
  ⟨by simp, hptr, store_sequence_combine mixed_graph _ (by simp) hptr⟩

/-! ## Traversal -/

theorem accept_children_ok {rec : Expr → Visitor → Except Fault Visitor} {cs : List Expr}
    (h : ∀ c ∈ cs, ∀ v, ∃ v', rec c v = .ok v') :
    ∀ v, ∃ v', accept_children rec cs v = .ok v' := by
  induction cs with
  | nil => intro v; exact ⟨v, rfl⟩
  | cons c cs ih =>
    intro v
    obtain ⟨v1, h1⟩ := h c (List.mem_cons_self _ _) v
    obtain ⟨v2, h2⟩ := ih (fun d hd => h d (List.mem_cons_of_mem _ hd)) v1
    exact ⟨v2, by simp [accept_children, h1, h2]⟩

/-- On an acyclic graph the recursion of `accept` ends: with `S` a set of nodes that all
reach `i`, fuel for the nodes outside `S` is enough. -/
theorem accept_terminates {g : Graph} {root : Nat} (hdag : g.dag_from root) :
    ∀ (fuel : Nat) (S : Finset Nat) (i : Nat), g.reaches root i →
      (∀ s ∈ S, Relation.TransGen g.edge s i) → (∀ s ∈ S, s < g.nodes.length) →
      g.nodes.length ≤ S.card + fuel →
      ∀ v, ∃ v', Expr.accept g fuel (some i) v = .ok v' := by
  intro fuel
  induction fuel with
  | zero =>
    intro S i hri hS hlt hcard v
    exfalso
    obtain ⟨n, hn, -⟩ := hdag.1 i hri
    have hi := lt_of_get hn
    have hnot : i ∉ S := fun hmem => hdag.2 i hri (hS i hmem)
    have hsub : insert i S ⊆ Finset.range g.nodes.length := by
      intro x hx
      rcases Finset.mem_insert.1 hx with rfl | hx
      · exact Finset.mem_range.2 hi
      · exact Finset.mem_range.2 (hlt x hx)
    have := Finset.card_le_card hsub
    rw [Finset.card_insert_of_not_mem hnot, Finset.card_range] at this
    omega
  | succ fuel ih =>
    intro S i hri hS hlt hcard v
    obtain ⟨n, hn, hnone⟩ := hdag.1 i hri
    have hi := lt_of_get hn
    have hnot : i ∉ S := fun hmem => hdag.2 i hri (hS i hmem)
    have hch : ∀ c ∈ n.ch, ∀ w, ∃ w', Expr.accept g fuel c w = .ok w' := by
      intro c hc w
      cases c with
      | none => exact absurd hc hnone
      | some j =>
        have hedge : g.edge i j := ⟨n, hn, hc⟩
        refine ih (insert i S) j (Relation.ReflTransGen.tail hri hedge) ?_ ?_ ?_ w
        · intro s hs
          rcases Finset.mem_insert.1 hs with rfl | hs
          · exact Relation.TransGen.single hedge
          · exact Relation.TransGen.tail (hS s hs) hedge
        · intro s hs
          rcases Finset.mem_insert.1 hs with rfl | hs
          · exact hi
          · exact hlt s hs
        · rw [Finset.card_insert_of_not_mem hnot]; omega
    obtain ⟨v2, h2⟩ := accept_children_ok hch
      (if v.order = Order.parent_first then v.visit (some i) else v)
    exact ⟨if v2.order = Order.child_first then v2.visit (some i) else v2,
      by simp only [Expr.accept, deref_of_get hn, h2]⟩

theorem accept_children_traversal {g : Graph} {rec : Expr → Visitor → Except Fault Visitor}
    (hrec : ∀ e v v', rec e v = .ok v' →
      ∃ tr, Traversal g v.order [e] tr ∧ v' = ⟨v.order, v.visited ++ tr⟩) :
    ∀ (cs : List Expr) (v v' : Visitor), accept_children rec cs v = .ok v' →
      ∃ tr, Traversal g v.order cs tr ∧ v' = ⟨v.order, v.visited ++ tr⟩ := by
  intro cs
  induction cs with
  | nil =>
    intro v v' h
    simp only [accept_children, Except.ok.injEq] at h
    exact ⟨[], Traversal.nil, by simp [← h]⟩
  | cons c cs ih =>
    intro v v' h
    simp only [accept_children] at h
    cases h1 : rec c v with
    | error f => simp [h1] at h
    | ok v1 =>
      simp only [h1] at h
      obtain ⟨tr1, t1, rfl⟩ := hrec c v v1 h1
      obtain ⟨tr2, t2, rfl⟩ := ih _ v' h
      cases t1 with
      | cons hn hsub hnil =>
        cases hnil
        refine ⟨_, Traversal.cons hn hsub t2, ?_⟩
        simp

/-- Whatever `accept` returns is the traversal sequence of its order, appended to what the
visitor had received before. -/
theorem accept_traversal (g : Graph) :
    ∀ (fuel : Nat) (e : Expr) (v v' : Visitor), Expr.accept g fuel e v = .ok v' →
      ∃ tr, Traversal g v.order [e] tr ∧ v' = ⟨v.order, v.visited ++ tr⟩ := by
  intro fuel
  induction fuel with
  | zero => intro e v v' h; simp [Expr.accept] at h
  | succ fuel ih =>
    intro e v v' h
    simp only [Expr.accept] at h
    cases hd : g.deref e with
    | error f => simp [hd] at h
    | ok n =>
      obtain ⟨i, rfl, hn⟩ := deref_eq_ok.1 hd
      simp only [hd] at h
      obtain ⟨ord, log⟩ := v
      cases hc : accept_children (Expr.accept g fuel) n.ch
          (if ord = Order.parent_first then Visitor.visit ⟨ord, log⟩ (some i) else ⟨ord, log⟩) with
      | error f => simp [hc] at h
      | ok v2 =>
        simp only [hc, Except.ok.injEq] at h
        obtain ⟨sub, tsub, rfl⟩ := accept_children_traversal ih _ _ _ hc
        subst h
        cases ord with
        | parent_first =>
          refine ⟨_, Traversal.cons hn tsub Traversal.nil, ?_⟩
          simp [Visitor.visit]
        | child_first =>
          refine ⟨_, Traversal.cons hn tsub Traversal.nil, ?_⟩
          simp [Visitor.visit]

theorem traversal_unique {g : Graph} {ord : Order} {es l : List Expr}
    (h : Traversal g ord es l) : ∀ l', Traversal g ord es l' → l' = l := by
  induction h with
  | nil => intro l' h'; cases h'; rfl
  | cons hn _ _ ih1 ih2 =>
    intro l' h'
    cases h' with
    | cons hn' hsub' hrest' =>
      rw [hn] at hn'
      cases hn'
      rw [ih1 _ hsub', ih2 _ hrest']


/-- A state in which every child handle references a node at a smaller address is an
acyclic graph from each of its nodes. -/
theorem dag_of_children_below {g : Graph} (h : g.children_below = true) {r : Nat}
    (hr : r < g.nodes.length) : g.dag_from r := by
  have hedge : ∀ i j, g.edge i j → j < i := by
    rintro i j ⟨n, hn, hj⟩
    have hi := lt_of_get hn
    simp only [Graph.children_below, List.all_eq_true, List.mem_range] at h
    have := h i hi (some j) (by simpa [Graph.ch_of, hn] using hj)
    simpa using this
  have htrans : ∀ i j, Relation.TransGen g.edge i j → j < i := by
    intro i j hij
    induction hij with
    | single h1 => exact hedge _ _ h1
    | tail _ h2 ih => exact lt_trans (hedge _ _ h2) ih
  have hreach : ∀ i, g.reaches r i → i ≤ r := by
    intro i hi
    rcases Relation.reflTransGen_iff_eq_or_transGen.1 hi with rfl | ht
    · exact le_refl _
    · exact le_of_lt (htrans _ _ ht)
  refine ⟨?_, fun i _ hc => lt_irrefl _ (htrans _ _ hc)⟩
  intro i hi
  have hlt : i < g.nodes.length := lt_of_le_of_lt (hreach i hi) hr
  refine ⟨g.nodes[i], List.getElem?_eq_getElem hlt, ?_⟩
  intro hnone
  simp only [Graph.children_below, List.all_eq_true, List.mem_range] at h
  have := h i hlt none (by simpa [Graph.ch_of, List.getElem?_eq_getElem hlt] using hnone)
  simp at this

/-- C4: on an acyclic graph rooted at a non-empty handle (every node reachable from it
allocated and without empty child handles), `accept` returns, whatever fuel at least the
number of allocated nodes it is given, and delivers to the visitor the pre-order sequence
under `parent_first` and the post-order sequence under `child_first`, each the only
sequence the traversal contract allows. On the tree `add(mul(x, y), z)` the visitor
receives `[add, mul, x, y, z]` under `parent_first` and `[x, y, mul, z, add]` under
`child_first`. -/
theorem accept_order (g : Graph) (r : Nat) (hdag : g.dag_from r) (log : List Expr) :
    (∃ pre post,
      Traversal g Order.parent_first [some r] pre ∧
      Traversal g Order.child_first [some r] post ∧
      (∀ l, Traversal g Order.parent_first [some r] l → l = pre) ∧
      (∀ l, Traversal g Order.child_first [some r] l → l = post) ∧
      ∀ fuel, g.nodes.length ≤ fuel →
        Expr.accept g fuel (some r) ⟨Order.parent_first, log⟩ =
          .ok ⟨Order.parent_first, log ++ pre⟩ ∧
        Expr.accept g fuel (some r) ⟨Order.child_first, log⟩ =
          .ok ⟨Order.child_first, log ++ post⟩) ∧
    (∃ t x y z m a, tree_example = .ok (t, x, y, z, m, a) ∧
      t.shape a = some (NodeType.add, [m, z]) ∧ t.shape m = some (NodeType.mul, [x, y]) ∧
      t.shape x = some (NodeType.index, []) ∧ t.shape y = some (NodeType.index, []) ∧
      t.shape z = some (NodeType.index, []) ∧
      Expr.accept t 3 a ⟨Order.parent_first, []⟩ = .ok ⟨Order.parent_first, [a, m, x, y, z]⟩ ∧
      Expr.accept t 3 a ⟨Order.child_first, []⟩ = .ok ⟨Order.child_first, [x, y, m, z, a]⟩) := by
  constructor
  · have hterm : ∀ fuel, g.nodes.length ≤ fuel → ∀ v, ∃ v', Expr.accept g fuel (some r) v = .ok v' :=
      fun fuel hf => accept_terminates hdag fuel ∅ r Relation.ReflTransGen.refl
        (by simp) (by simp) (by simpa using hf)
    obtain ⟨v1, h1⟩ := hterm g.nodes.length (le_refl _) ⟨Order.parent_first, log⟩
    obtain ⟨v2, h2⟩ := hterm g.nodes.length (le_refl _) ⟨Order.child_first, log⟩
    obtain ⟨pre, tpre, -⟩ := accept_traversal g _ _ _ _ h1
    obtain ⟨post, tpost, -⟩ := accept_traversal g _ _ _ _ h2
    refine ⟨pre, post, tpre, tpost, traversal_unique tpre, traversal_unique tpost, ?_⟩
    intro fuel hf
    obtain ⟨w1, k1⟩ := hterm fuel hf ⟨Order.parent_first, log⟩
    obtain ⟨w2, k2⟩ := hterm fuel hf ⟨Order.child_first, log⟩
    obtain ⟨l1, t1, rfl⟩ := accept_traversal g _ _ _ _ k1
    obtain ⟨l2, t2, rfl⟩ := accept_traversal g _ _ _ _ k2
    rw [k1, k2, traversal_unique tpre _ t1, traversal_unique tpost _ t2]
    exact ⟨rfl, rfl⟩
  · exact ⟨_, _, _, _, _, _, rfl, rfl, rfl, rfl, rfl, rfl, rfl, rfl⟩


/-- An instance: the traversals of the graph of `(x * x) + (x * x)` from its root. -/
theorem accept_order_witness :
    shared_graph.dag_from 2 ∧
    ((∃ pre post,
      Traversal shared_graph Order.parent_first [some 2] pre ∧
      Traversal shared_graph Order.child_first [some 2] post ∧
      (∀ l, Traversal shared_graph Order.parent_first [some 2] l → l = pre) ∧
      (∀ l, Traversal shared_graph Order.child_first [some 2] l → l = post) ∧
      ∀ fuel, shared_graph.nodes.length ≤ fuel →
        Expr.accept shared_graph fuel (some 2) ⟨Order.parent_first, []⟩ =
          .ok ⟨Order.parent_first, [] ++ pre⟩ ∧
        Expr.accept shared_graph fuel (some 2) ⟨Order.child_first, []⟩ =
          .ok ⟨Order.child_first, [] ++ post⟩) ∧
    (∃ t x y z m a, tree_example = .ok (t, x, y, z, m, a) ∧
      t.shape a = some (NodeType.add, [m, z]) ∧ t.shape m = some (NodeType.mul, [x, y]) ∧
      t.shape x = some (NodeType.index, []) ∧ t.shape y = some (NodeType.index, []) ∧
      t.shape z = some (NodeType.index, []) ∧
      Expr.accept t 3 a ⟨Order.parent_first, []⟩ = .ok ⟨Order.parent_first, [a, m, x, y, z]⟩ ∧
      Expr.accept t 3 a ⟨Order.child_first, []⟩ = .ok ⟨Order.child_first, [x, y, m, z, a]⟩)) :=
  have hdag : shared_graph.dag_from 2 := dag_of_children_below (by decide) (by decide)
  ⟨hdag, accept_order shared_graph 2 hdag []⟩

/-- In a traversal sequence a node occurs once for each time it is a root and once for
each occurrence of each of its parents, per child handle of that parent referencing it. -/
theorem traversal_count {g : Graph} {ord : Order} {es tr : List Expr}
    (h : Traversal g ord es tr) (n : Nat) :
    tr.count (some n) = es.count (some n) +
      Finset.sum (Finset.range g.nodes.length)
        (fun p => tr.count (some p) * (g.ch_of p).count (some n)) := by
  induction h with
  | nil => simp
  | @cons i nd cs sub rest hn _ _ ih1 ih2 =>
    have hcount : ∀ a : Nat,
        List.count (some a)
          ((if ord = Order.parent_first then some i :: sub else sub ++ [some i]) ++ rest) =
        (if i = a then 1 else 0) + sub.count (some a) + rest.count (some a) := by
      intro a
      cases ord <;> simp [List.count_cons, List.count_append] <;> omega
    have hi : i < g.nodes.length := lt_of_get hn
    have hch : g.ch_of i = nd.ch := by simp [Graph.ch_of, hn]
    simp only [hcount, add_mul, Finset.sum_add_distrib, ite_mul, one_mul, zero_mul,
      Finset.sum_ite_eq, Finset.mem_range, hi, if_true, hch]
    rw [ih1, ih2]
    simp only [List.count_cons, beq_iff_eq, Option.some.injEq]
    omega


/-! ## Acyclicity -/

/-- C8: for a node `n` of opcode `load` or `store`, `n.addr()` returns an address exactly
when `n` has a first child that references a `pointer` node whose own first child
references an `addr` node, and the address returned is the one that `addr` node holds; in
every other case the call fails. For a node of any other opcode the call fails on its
first assertion. -/
theorem addr_succeeds_iff (g : Graph) (n : Node) :
    (∀ a, n.addr g = .ok a ↔
      (n.type = NodeType.load ∨ n.type = NodeType.store) ∧
      ∃ c0 p c00 t, n.ch[0]? = some c0 ∧ g.deref c0 = .ok p ∧ p.type = NodeType.pointer ∧
        p.ch[0]? = some c00 ∧ g.deref c00 = .ok t ∧ t.type = NodeType.addr ∧ t._addr = a) ∧
    ((∀ a, n.addr g ≠ .ok a) ↔ ∃ f, n.addr g = .error f) ∧
    (n.type ≠ NodeType.load → n.type ≠ NodeType.store → n.addr g = .error Fault.assertion) := by
  refine ⟨?_, ?_, ?_⟩
  · intro a
    constructor
    · intro h
      by_cases hty : n.type = NodeType.load ∨ n.type = NodeType.store
      swap
      · have h1 : n.type ≠ NodeType.load := fun h => hty (Or.inl h)
        have h2 : n.type ≠ NodeType.store := fun h => hty (Or.inr h)
        simp [Node.addr, TC_ASSERT, h1, h2] at h
      have hty' : (decide (n.type = NodeType.load) || decide (n.type = NodeType.store)) = true := by
        simpa using hty
      simp only [Node.addr, TC_ASSERT, hty', if_true] at h
      cases hch : n.ch with
      | nil => simp [hch] at h
      | cons c0 rest =>
        simp only [hch, List.length_cons, ne_eq, Nat.add_one_ne_zero, not_false_eq_true,
          decide_True, if_true, List.getElem?_cons_zero] at h
        cases hd : g.deref c0 with
        | error f => simp [hd] at h
        | ok p =>
          simp only [hd] at h
          by_cases hp : p.type = NodeType.pointer
          swap
          · simp [hp] at h
          simp only [hp, decide_True, if_true] at h
          cases hpc : p.ch with
          | nil => simp [hpc] at h
          | cons c00 rest2 =>
            simp only [hpc, List.getElem?_cons_zero] at h
            cases hd2 : g.deref c00 with
            | error f => simp [hd2] at h
            | ok t =>
              simp only [hd2] at h
              by_cases ht : t.type = NodeType.addr
              swap
              · simp [Node.get_address, TC_ASSERT, ht] at h
              simp only [Node.get_address, TC_ASSERT, ht, decide_True, if_true,
                Except.ok.injEq] at h
              exact ⟨hty, c0, p, c00, t, by simp, hd, hp, by simp [hpc], hd2, ht, h⟩
    · rintro ⟨hty, c0, p, c00, t, h1, h2, h3, h4, h5, h6, rfl⟩
      have hty' : (decide (n.type = NodeType.load) || decide (n.type = NodeType.store)) = true := by
        simpa using hty
      have hlen : n.ch.length ≠ 0 := by
        intro hz
        rw [List.length_eq_zero] at hz
        simp [hz] at h1
      simp [Node.addr, Node.get_address, TC_ASSERT, hty', hlen, h1, h2, h3, h4, h5, h6]
  · cases h : n.addr g with
    | error f => simp
    | ok a => simp
  · intro h1 h2
    simp [Node.addr, TC_ASSERT, h1, h2]


theorem expr_eq_iff (a b : Expr) : Expr.eq a b = true ↔ a = b := by
  simp [Expr.eq, Expr.to_void_ptr]

theorem int_of_size_small {n : Nat} (h : n < 2 ^ 31) : int_of_size n = (n : Int) := by
  unfold int_of_size
  omega

/-- The loop of `member_id` started at index `i` with the iterations up to the end of
`members` left: it returns the first index from `i` on whose member is `expr`, or -1. -/
theorem member_id_loop_spec (members : List Expr) (expr : Expr) :
    ∀ (k i : Nat), i + k = members.length →
      (∃ r : Nat, Node.member_id_loop members expr k i = (r : Int) ∧ i ≤ r ∧
          members[r]? = some expr ∧ ∀ j, i ≤ j → j < r → members[j]? ≠ some expr) ∨
      (Node.member_id_loop members expr k i = -1 ∧
          ∀ j, i ≤ j → members[j]? ≠ some expr) := by
  intro k
  induction k with
  | zero =>
    intro i hi
    right
    refine ⟨rfl, ?_⟩
    intro j hj
    rw [List.getElem?_eq_none (by omega)]
    simp
  | succ k ih =>
    intro i hi
    have hlt : i < members.length := by omega
    have hget : members.getD i none = members[i] := by
      simp [List.getD, List.getElem?_eq_getElem hlt]
    by_cases he : members[i] = expr
    · left
      refine ⟨i, ?_, le_refl _, ?_, ?_⟩
      · have : Expr.eq members[i] expr = true := (expr_eq_iff _ _).2 he
        simp only [Node.member_id_loop, hget, this, if_true]
      · rw [List.getElem?_eq_getElem hlt, he]
      · intro j h1 h2; omega
    · have hstep : Node.member_id_loop members expr (k + 1) i =
          Node.member_id_loop members expr k (i + 1) := by
        have : Expr.eq members[i] expr = false := by
          rw [Bool.eq_false_iff, ne_eq, expr_eq_iff]; exact he
        simp only [Node.member_id_loop, hget, this, Bool.false_eq_true, if_false]
      have hne : members[i]? ≠ some expr := by
        rw [List.getElem?_eq_getElem hlt]
        simpa using he
      rcases ih (i + 1) (by omega) with ⟨r, h1, h2, h3, h4⟩ | ⟨h1, h2⟩
      · left
        refine ⟨r, by rw [hstep, h1], by omega, h3, ?_⟩
        intro j hj1 hj2
        by_cases hji : j = i
        · rw [hji]; exact hne
        · exact h4 j (by omega) hj2
      · right
        refine ⟨by rw [hstep, h1], ?_⟩
        intro j hj1
        by_cases hji : j = i
        · rw [hji]; exact hne
        · exact h2 j (by omega)

/-- C9: for a node whose number of members fits an `int`, `member_id(e)` returns the
smallest index whose member references the same node as `e`, and returns -1 exactly when
no member does; hence when the members are pairwise distinct, `member_id(members[i])` is
`i` for every valid `i`. -/
theorem member_id_first_match (n : Node) (e : Expr) (hsize : n.members.length < 2 ^ 31) :
    (∀ i : Nat, n.member_id e = (i : Int) ↔
      n.members[i]? = some e ∧ ∀ j : Nat, j < i → n.members[j]? ≠ some e) ∧
    (n.member_id e = -1 ↔ ∀ m ∈ n.members, Expr.eq m e = false) ∧
    (n.member_id e = -1 ∨ ∃ i : Nat, i < n.members.length ∧ n.member_id e = (i : Int)) ∧
    (n.members.Nodup → ∀ (i : Nat) (m : Expr), n.members[i]? = some m →
      n.member_id m = (i : Int)) := by
  have hk : (int_of_size n.members.length).toNat = n.members.length := by
    rw [int_of_size_small hsize]; simp
  have hspec : ∀ x : Expr,
      (∃ r : Nat, n.member_id x = (r : Int) ∧
          n.members[r]? = some x ∧ ∀ j : Nat, j < r → n.members[j]? ≠ some x) ∨
      (n.member_id x = -1 ∧ ∀ j : Nat, n.members[j]? ≠ some x) := by
    intro x
    have := member_id_loop_spec n.members x n.members.length 0 (by simp)
    simp only [Node.member_id, hk]
    rcases this with ⟨r, h1, -, h3, h4⟩ | ⟨h1, h2⟩
    · exact Or.inl ⟨r, h1, h3, fun j hj => h4 j (Nat.zero_le _) hj⟩
    · exact Or.inr ⟨h1, fun j => h2 j (Nat.zero_le _)⟩
  have hfirst : ∀ (x : Expr) (i : Nat), n.members[i]? = some x →
      (∀ j : Nat, j < i → n.members[j]? ≠ some x) → n.member_id x = (i : Int) := by
    intro x i hi hmin
    rcases hspec x with ⟨r, h1, h3, h4⟩ | ⟨h1, h2⟩
    · have : r = i := by
        rcases Nat.lt_trichotomy r i with h | h | h
        · exact absurd h3 (hmin r h)
        · exact h
        · exact absurd hi (h4 i h)
      rw [h1, this]
    · exact absurd hi (h2 i)
  refine ⟨?_, ?_, ?_, ?_⟩
  · intro i
    constructor
    · intro h
      rcases hspec e with ⟨r, h1, h3, h4⟩ | ⟨h1, h2⟩
      · have : r = i := by
          rw [h1] at h
          exact_mod_cast h
        subst this
        exact ⟨h3, h4⟩
      · rw [h1] at h
        omega
    · rintro ⟨h1, h2⟩
      exact hfirst e i h1 h2
  · constructor
    · intro h m hm
      rw [Bool.eq_false_iff, ne_eq, expr_eq_iff]
      rintro rfl
      obtain ⟨j, hj⟩ := List.mem_iff_getElem?.1 hm
      rcases hspec m with ⟨r, h1, h3, h4⟩ | ⟨h1, h2⟩
      · rw [h1] at h
        omega
      · exact h2 j hj
    · intro h
      rcases hspec e with ⟨r, h1, h3, h4⟩ | ⟨h1, h2⟩
      · have hmem : e ∈ n.members := List.mem_iff_getElem?.2 ⟨r, h3⟩
        have := h e hmem
        rw [Bool.eq_false_iff, ne_eq, expr_eq_iff] at this
        exact absurd rfl this
      · exact h1
  · rcases hspec e with ⟨r, h1, h3, h4⟩ | ⟨h1, h2⟩
    · right
      refine ⟨r, ?_, h1⟩
      by_contra hc
      rw [List.getElem?_eq_none (by omega)] at h3
      cases h3
    · exact Or.inl h1
  · intro hnd i m hi
    refine hfirst m i hi ?_
    intro j hj hjm
    have hli : i < n.members.length := by
      by_contra hc
      rw [List.getElem?_eq_none (by omega)] at hi
      cases hi
    have hlj : j < n.members.length := by omega
    rw [List.getElem?_eq_getElem hli] at hi
    rw [List.getElem?_eq_getElem hlj] at hjm
    have heq : n.members[j] = n.members[i] := by
      simp only [Option.some.injEq] at hi hjm
      rw [hi, hjm]
    have := (List.Nodup.getElem_inj_iff hnd).1 heq
    omega


/-- An instance: in a group of members `[e0, e1, e2]`, `member_id(e1)` is 1 and the
`member_id` of a handle that is no member is -1. -/
theorem member_id_first_match_witness :
    group_node.members.length < 2 ^ 31 ∧
    group_node.member_id (some 1) = 1 ∧ group_node.member_id (some 3) = -1 ∧
    (∀ i : Nat, group_node.member_id (some 1) = (i : Int) ↔
      group_node.members[i]? = some (some 1) ∧
        ∀ j : Nat, j < i → group_node.members[j]? ≠ some (some 1)) ∧
    (group_node.member_id (some 1) = -1 ↔ ∀ m ∈ group_node.members, Expr.eq m (some 1) = false) ∧
    (group_node.member_id (some 1) = -1 ∨
      ∃ i : Nat, i < group_node.members.length ∧ group_node.member_id (some 1) = (i : Int)) ∧
    (group_node.members.Nodup → ∀ (i : Nat) (m : Expr), group_node.members[i]? = some m →
      group_node.member_id m = (i : Int)) :=
  ⟨by decide, by decide, by decide,
    member_id_first_match group_node (some 1) (by decide)⟩

/-! ## Equality of handles -/

/-- C10: `a == b` holds exactly when `a` and `b` reference the same node or are both
empty, and `a != b` is its negation; a handle and a copy of it compare equal; the handle
an allocation returns compares unequal to every handle that was valid before, so two
nodes built by two calls of `Expr::create` with the same opcode and children have the
same opcode, children and data type and still compare unequal. -/
theorem expr_eq_identity :
    (∀ a b : Expr, Expr.eq a b = true ↔
      (a = none ∧ b = none) ∨ ∃ i, a = some i ∧ b = some i) ∧
    (∀ a b : Expr, Expr.ne a b = !Expr.eq a b) ∧
    (∀ a : Expr, Expr.eq a a = true) ∧
    (∀ (g : Graph) (ctor : Int → Node) (e : Expr), g.valid e →
      Expr.eq e (g.make_shared ctor).2 = false ∧ Expr.eq (g.make_shared ctor).2 e = false) ∧
    (∀ (g : Graph) (type : NodeType) (ch0 ch1 : Expr),
      ∃ na nb,
        (Expr.create2 (Expr.create2 g type ch0 ch1).1 type ch0 ch1).1.deref
          (Expr.create2 g type ch0 ch1).2 = .ok na ∧
        (Expr.create2 (Expr.create2 g type ch0 ch1).1 type ch0 ch1).1.deref
          (Expr.create2 (Expr.create2 g type ch0 ch1).1 type ch0 ch1).2 = .ok nb ∧
        na.type = nb.type ∧ na.ch = nb.ch ∧ na.data_type = nb.data_type ∧
        Expr.eq (Expr.create2 g type ch0 ch1).2
          (Expr.create2 (Expr.create2 g type ch0 ch1).1 type ch0 ch1).2 = false) := by
  refine ⟨?_, ?_, ?_, ?_, ?_⟩
  · intro a b
    rw [expr_eq_iff]
    cases a <;> cases b <;> simp [eq_comm]
  · intro a b
    simp [Expr.ne, Expr.eq]
  · intro a
    exact (expr_eq_iff a a).2 rfl
  · rintro g ctor e ⟨i, n, rfl, hn⟩
    have hi := lt_of_get hn
    simp only [Bool.eq_false_iff, ne_eq, expr_eq_iff, make_shared_snd, Option.some.injEq]
    omega
  · intro g type ch0 ch1
    refine ⟨_, _, make_shared_deref _ (deref_of_get (make_shared_new g _)),
      deref_of_get (make_shared_new _ _), rfl, rfl, rfl, ?_⟩
    simp [Bool.eq_false_iff, expr_eq_iff, Expr.create2, Graph.make_shared]


/-! ## Memory nodes -/

theorem first_child_pointer_mono {g g' : Graph} {n : Node}
    (hext : ∀ (i : Nat) (m : Node), g.nodes[i]? = some m → g'.nodes[i]? = some m)
    (h : g.first_child_pointer n) : g'.first_child_pointer n := by
  obtain ⟨c, p, h1, h2, h3⟩ := h
  obtain ⟨i, rfl, hi⟩ := deref_eq_ok.1 h2
  exact ⟨some i, p, h1, deref_of_get (hext _ _ hi), h3⟩

theorem new_memory_nodes_ok_trans {g g1 g2 : Graph}
    (h1 : g.new_memory_nodes_ok g1) (h2 : g1.new_memory_nodes_ok g2)
    (hext : ∀ (i : Nat) (m : Node), g1.nodes[i]? = some m → g2.nodes[i]? = some m) :
    g.new_memory_nodes_ok g2 := by
  intro i n hi hn hty
  by_cases hlt : i < g1.nodes.length
  · have hn1 : g1.nodes[i]? = some n := by
      have := hext i _ (List.getElem?_eq_getElem hlt)
      rw [hn] at this
      rw [List.getElem?_eq_getElem hlt, ← this]
    exact first_child_pointer_mono hext (h1 i n hi hn1 hty)
  · exact h2 i n (by omega) hn hty

theorem load_if_pointer_new_ok {g g1 : Graph} {e e1 : Expr}
    (h : Expr.load_if_pointer g e = .ok (g1, e1)) :
    g.new_memory_nodes_ok g1 ∧ g.nodes.length ≤ g1.nodes.length ∧
      ∀ (i : Nat) (m : Node), g.nodes[i]? = some m → g1.nodes[i]? = some m := by
  cases hd : g.deref e with
  | error f => simp [Expr.load_if_pointer, hd] at h
  | ok n =>
    simp only [Expr.load_if_pointer, hd] at h
    split at h
    · rename_i hp
      simp only [Except.ok.injEq, Prod.mk.injEq] at h
      obtain ⟨rfl, -⟩ := h
      refine ⟨?_, by simp [Expr.create1, Graph.make_shared],
        fun i m hm => make_shared_old (fun c => Node.ctor1 c NodeType.load e) hm⟩
      intro i m hi hm _
      have hlt : i < (g.make_shared (fun c => Node.ctor1 c NodeType.load e)).1.nodes.length :=
        lt_of_get hm
      rw [make_shared_length] at hlt
      have hi' : i = g.nodes.length := by omega
      subst hi'
      have hnew := make_shared_new g (fun c => Node.ctor1 c NodeType.load e)
      have hm' : (g.make_shared (fun c => Node.ctor1 c NodeType.load e)).1.nodes[g.nodes.length]?
          = some m := hm
      rw [hnew] at hm'
      simp only [Option.some.injEq] at hm'
      subst hm'
      exact ⟨e, n, by simp [Node.ctor1],
        make_shared_deref (fun c => Node.ctor1 c NodeType.load e) hd, hp⟩
    · simp only [Except.ok.injEq, Prod.mk.injEq] at h
      obtain ⟨rfl, -⟩ := h
      refine ⟨?_, le_refl _, fun i m hm => hm⟩
      intro i m hi hm _
      have := lt_of_get hm
      omega

theorem binary_op_new_ok {op : BinaryOp} {rhs_first : Bool} {g g' : Graph} {a b t : Expr}
    (h : Expr.binary_op op.name rhs_first g a b = .ok (g', t)) :
    g.new_memory_nodes_ok g' := by
  have hname : op.name ≠ NodeType.load ∧ op.name ≠ NodeType.store := by
    cases op <;> exact ⟨by decide, by decide⟩
  have hfinal : ∀ (g2 : Graph) (a1 b1 : Expr) (dt : DataType),
      g.new_memory_nodes_ok g2 → g.nodes.length ≤ g2.nodes.length →
      g.new_memory_nodes_ok ⟨g2.nodes ++ [{ Node.ctor2 g2.counter op.name a1 b1 with
        data_type := dt }], int_wrap (g2.counter + 1)⟩ := by
    intro g2 a1 b1 dt hok hlen
    refine new_memory_nodes_ok_trans hok ?_ ?_
    · intro i n hi hn hty
      have hlt := lt_of_get hn
      simp only [List.length_append, List.length_singleton] at hlt
      have hi' : i = g2.nodes.length := by omega
      subst hi'
      simp only [List.getElem?_append_right (le_refl _), Nat.sub_self, List.getElem?_cons_zero,
        Option.some.injEq] at hn
      subst hn
      rcases hty with hty | hty
      · exact absurd hty hname.1
      · exact absurd hty hname.2
    · intro i m hm
      show (g2.nodes ++ _)[i]? = some m
      rw [List.getElem?_append_left (lt_of_get hm)]; exact hm
  simp only [Expr.binary_op] at h
  cases hda : g.deref a with
  | error f => simp [hda] at h
  | ok na =>
  cases hdb : g.deref b with
  | error f => simp [hda, hdb] at h
  | ok nb =>
  by_cases hty : na.data_type = nb.data_type
  swap
  · simp [hda, hdb, TC_ASSERT, hty] at h
  simp only [hda, hdb, TC_ASSERT, hty, decide_True, if_true] at h
  obtain ⟨ib, rfl, hib⟩ := deref_eq_ok.1 hdb
  cases rhs_first
  · simp only [Bool.false_eq_true, if_false] at h
    cases h1 : Expr.load_if_pointer g a with
    | error f => simp [h1] at h
    | ok r1 =>
    obtain ⟨g1, a1⟩ := r1
    obtain ⟨k1, l1, e1⟩ := load_if_pointer_new_ok h1
    cases h2 : Expr.load_if_pointer g1 (some ib) with
    | error f => simp [h1, h2] at h
    | ok r2 =>
    obtain ⟨g2, b2⟩ := r2
    obtain ⟨k2, l2, e2⟩ := load_if_pointer_new_ok h2
    have hdb2 : g2.deref (some ib) = .ok nb := deref_of_get (e2 _ _ (e1 _ _ hib))
    simp only [h1, h2] at h
    rw [binary_op_tail op.name a1 b2 hdb2] at h
    simp only [Except.ok.injEq, Prod.mk.injEq] at h
    obtain ⟨rfl, -⟩ := h
    exact hfinal g2 a1 b2 _ (new_memory_nodes_ok_trans k1 k2 e2) (le_trans l1 l2)
  · simp only [if_true] at h
    cases h1 : Expr.load_if_pointer g (some ib) with
    | error f => simp [h1] at h
    | ok r1 =>
    obtain ⟨g1, b1⟩ := r1
    obtain ⟨k1, l1, e1⟩ := load_if_pointer_new_ok h1
    cases h2 : Expr.load_if_pointer g1 a with
    | error f => simp [h1, h2] at h
    | ok r2 =>
    obtain ⟨g2, a2⟩ := r2
    obtain ⟨k2, l2, e2⟩ := load_if_pointer_new_ok h2
    have hdb2 : g2.deref (some ib) = .ok nb := deref_of_get (e2 _ _ (e1 _ _ hib))
    simp only [h1, h2] at h
    rw [binary_op_tail op.name a2 b1 hdb2] at h
    simp only [Except.ok.injEq, Prod.mk.injEq] at h
    obtain ⟨rfl, -⟩ := h
    exact hfinal g2 a2 b1 _ (new_memory_nodes_ok_trans k1 k2 e2) (le_trans l1 l2)


/-- A `store` that returns was given a pointer argument that references a `pointer` node
allocated before the call. -/
theorem store_ok_pointer {g : Graph} {r : Nat} {p v s : Expr}
    (hres : (Expr.store g (some r) (Ref.other p) (Ref.other v)).result = .ok s) :
    ∃ pn, g.deref p = .ok pn ∧ pn.type = NodeType.pointer := by
  cases hd2 : (g.make_shared (fun c => Node.ctor c NodeType.store)).1.deref p with
  | error f => simp [Expr.store, Expr.to_bool, Expr.to_void_ptr, Ref.get, hd2] at hres
  | ok pn =>
    by_cases hpt : pn.type = NodeType.pointer
    swap
    · simp [Expr.store, Expr.to_bool, Expr.to_void_ptr, Ref.get, hd2, TC_ASSERT, hpt] at hres
    obtain ⟨i, rfl, hi⟩ := deref_eq_ok.1 hd2
    refine ⟨pn, deref_of_get ?_, hpt⟩
    have hlt := lt_of_get hi
    rw [make_shared_length] at hlt
    by_cases hiN : i = g.nodes.length
    · subst hiN
      rw [make_shared_new] at hi
      simp only [Option.some.injEq] at hi
      subst hi
      simp [Node.ctor] at hpt
    · have hlt' : i < g.nodes.length := by omega
      have := make_shared_old (fun c => Node.ctor c NodeType.store)
        (List.getElem?_eq_getElem hlt')
      rw [hi] at this
      rw [List.getElem?_eq_getElem hlt', ← this]

theorem set_append_get (l : List Node) (sn c' : Node) {r : Nat} (hr : r < l.length) (i : Nat) :
    ((l ++ [sn]).set r c')[i]? =
      if i = r then some c' else if i = l.length then some sn else l[i]? := by
  by_cases h1 : i = r
  · subst h1
    have : i < l.length + 1 := by omega
    simp [List.getElem?_set, this]
  · by_cases h2 : i = l.length
    · subst h2
      simp [List.getElem?_set, Ne.symm h1, h1]
    · simp only [h1, h2, if_false]
      rw [List.getElem?_set]
      simp only [Ne.symm h1, if_false]
      by_cases h3 : i < l.length
      · rw [List.getElem?_append_left h3]
      · rw [List.getElem?_eq_none (by simp; omega), List.getElem?_eq_none (by omega)]

theorem store_new_ok {g : Graph} {r : Nat} {c : Node} {p v s : Expr}
    (hr : g.nodes[r]? = some c)
    (hres : (Expr.store g (some r) (Ref.other p) (Ref.other v)).result = .ok s) :
    g.new_memory_nodes_ok (Expr.store g (some r) (Ref.other p) (Ref.other v)).graph ∧
      g.nodes.length < (Expr.store g (some r) (Ref.other p) (Ref.other v)).graph.nodes.length ∧
      ∃ c', (Expr.store g (some r) (Ref.other p) (Ref.other v)).graph.nodes[r]? = some c' ∧
        c'.type = c.type := by
  obtain ⟨pn, hd, hpt⟩ := store_ok_pointer hres
  have hlr := lt_of_get hr
  rw [store_nonempty v hr hd hpt]
  obtain ⟨pi, rfl, hpi⟩ := deref_eq_ok.1 hd
  have hlp := lt_of_get hpi
  refine ⟨?_, by simp, { c with ch := c.ch ++ [some g.nodes.length] },
    by rw [set_append_get _ _ _ hlr]; simp, rfl⟩
  intro i n hi hn _
  have hlt := lt_of_get hn
  simp only [List.length_set, List.length_append, List.length_singleton] at hlt
  have hi' : i = g.nodes.length := by omega
  subst hi'
  have hne : g.nodes.length ≠ r := by omega
  have hn' := hn
  simp only [set_append_get _ _ _ hlr, hne, if_false, if_true, Option.some.injEq] at hn'
  subst hn'
  by_cases hpr : pi = r
  · subst hpr
    rw [hr] at hpi
    simp only [Option.some.injEq] at hpi
    subst hpi
    refine ⟨some pi, { c with ch := c.ch ++ [some g.nodes.length] }, rfl, deref_of_get ?_, hpt⟩
    show ((g.nodes ++ [_]).set pi _)[pi]? = _
    rw [set_append_get _ _ _ hlr]
    simp
  · refine ⟨some pi, pn, rfl, deref_of_get ?_, hpt⟩
    show ((g.nodes ++ [_]).set r _)[pi]? = _
    rw [set_append_get _ _ _ hlr]
    have : pi ≠ g.nodes.length := by omega
    simp [hpr, this, hpi]

/-- C7, as stated, fails for the free function `load`: `load(index(0))` returns a `load`
node whose first child is the index node, which is not a `pointer` node. -/
theorem load_of_non_pointer :
    ∃ g1 x, Expr.index Graph.empty 0 = .ok (g1, x) ∧
      load g1 x = .ok (load_index_graph, some 1) ∧
      load_index_graph.shape (some 1) = some (NodeType.load, [x]) ∧
      load_index_graph.shape x = some (NodeType.index, []) ∧
      ∃ n, load_index_graph.deref (some 1) = .ok n ∧ n.type = NodeType.load ∧
        ¬ load_index_graph.first_child_pointer n := by
  refine ⟨_, some 0, rfl, rfl, rfl, rfl, _, rfl, rfl, ?_⟩
  rintro ⟨c, p, h1, h2, h3⟩
  have hc : c = some 0 := by
    have : load_index_graph.nodes[1].ch[0]? = some (some 0) := rfl
    rw [this] at h1
    exact (Option.some.inj h1).symm
  subst hc
  have hp : load_index_graph.deref (some 0) =
      .ok { Node.ctor 0 NodeType.index with data_type := DataType.i32 } := rfl
  rw [hp] at h2
  cases h2
  cases h3

/-- C7, amended: after `Expr::load_if_pointer`, after each of the eight binary operators
and after `Expr::store` on an empty or valid receiver, every `load` or `store` node the
call allocated has a first child that references a `pointer` node. The free function
`load` checks nothing: the `load` node it returns has its argument as only child, so its
first child references a `pointer` node exactly when the argument does. -/
theorem memory_nodes_first_child :
    (∀ (g : Graph) (e : Expr) (g' : Graph) (e' : Expr),
      Expr.load_if_pointer g e = .ok (g', e') → g.new_memory_nodes_ok g') ∧
    (∀ (op : BinaryOp) (rhs_first : Bool) (g : Graph) (a b : Expr) (g' : Graph) (t : Expr),
      op.apply rhs_first g a b = .ok (g', t) → g.new_memory_nodes_ok g') ∧
    (∀ (g : Graph) (r : Expr) (p v : Ref) (s : Expr), (r = none ∨ g.valid r) →
      (Expr.store g r p v).result = .ok s →
      g.new_memory_nodes_ok (Expr.store g r p v).graph ∧
      ∃ n, (Expr.store g r p v).graph.deref s = .ok n ∧ n.type = NodeType.store ∧
        ¬ g.valid s ∧ (Expr.store g r p v).graph.first_child_pointer n) ∧
    (∀ (g : Graph) (a : Expr), ∃ g' l n, load g a = .ok (g', l) ∧ ¬ g.valid l ∧
      g'.deref l = .ok n ∧ n.type = NodeType.load ∧ n.ch = [a] ∧
      (g'.first_child_pointer n ↔ ∃ p, g.deref a = .ok p ∧ p.type = NodeType.pointer)) := by
  refine ⟨fun g e g' e' h => (load_if_pointer_new_ok h).1,
    fun op rhs_first g a b g' t h => binary_op_new_ok h, ?_, ?_⟩
  · intro g r p v s hr hres
    have hvalid : ∀ (g0 : Graph) (r0 : Nat) (c : Node) (p v : Expr), g0.nodes[r0]? = some c →
        (Expr.store g0 (some r0) (Ref.other p) (Ref.other v)).result = .ok s →
        s = some g0.nodes.length ∧
        ∃ n, (Expr.store g0 (some r0) (Ref.other p) (Ref.other v)).graph.deref s = .ok n ∧
          n.type = NodeType.store := by
      intro g0 r0 c p v hr0 hres0
      obtain ⟨pn, hd, hpt⟩ := store_ok_pointer hres0
      have hlr := lt_of_get hr0
      rw [store_nonempty v hr0 hd hpt] at hres0 ⊢
      simp only [Except.ok.injEq] at hres0
      subst hres0
      refine ⟨rfl, { Node.ctor g0.counter NodeType.store with ch := [p, v] }, deref_of_get ?_, rfl⟩
      show ((g0.nodes ++ [_]).set r0 _)[g0.nodes.length]? = _
      rw [set_append_get _ _ _ hlr]
      have : g0.nodes.length ≠ r0 := by omega
      simp [this]
    rcases hr with rfl | ⟨ri, c, rfl, hc⟩
    · rw [store_empty] at hres ⊢
      have hnew := make_shared_new g (fun c => Node.ctor c NodeType.combine)
      obtain ⟨hok, hlen, c', hc', hty'⟩ := store_new_ok hnew hres
      obtain ⟨hs, n, hn, hnt⟩ := hvalid _ _ _ _ _ hnew hres
      refine ⟨?_, n, hn, hnt, ?_, ?_⟩
      · intro i m hi hm hty
        by_cases hiN : i = g.nodes.length
        · subst hiN
          rw [hc'] at hm
          simp only [Option.some.injEq] at hm
          subst hm
          rw [hty'] at hty
          simp [Node.ctor] at hty
        · exact hok i m (by rw [make_shared_length]; omega) hm hty
      · rw [hs, make_shared_length]
        rintro ⟨i, m, h1, h2⟩
        cases h1
        have := lt_of_get h2
        omega
      · obtain ⟨j, rfl, hj⟩ := deref_eq_ok.1 hn
        refine hok j n ?_ hj (Or.inr hnt)
        simp only [Option.some.injEq] at hs
        omega
    · rw [store_resolve] at hres ⊢
      obtain ⟨hok, hlen, -⟩ := store_new_ok hc hres
      obtain ⟨hs, n, hn, hnt⟩ := hvalid _ _ _ _ _ hc hres
      refine ⟨hok, n, hn, hnt, ?_, ?_⟩
      · rw [hs]; exact not_valid_length g
      · obtain ⟨j, rfl, hj⟩ := deref_eq_ok.1 hn
        refine hok j n ?_ hj (Or.inr hnt)
        simp only [Option.some.injEq] at hs
        omega
  · intro g a
    have hform : load g a = .ok (⟨g.nodes ++ [{ Node.ctor g.counter NodeType.load with ch := [a] }],
        int_wrap (g.counter + 1)⟩, some g.nodes.length) := by
      simp [load, Expr.create0, Graph.make_shared, Graph.write, Graph.set, Node.ctor]
    refine ⟨_, _, { Node.ctor g.counter NodeType.load with ch := [a] }, hform,
      not_valid_length g, deref_of_get (by simp), rfl, rfl, ?_⟩
    constructor
    · rintro ⟨c, p, h1, h2, h3⟩
      simp only [List.getElem?_cons_zero, Option.some.injEq] at h1
      subst h1
      obtain ⟨i, rfl, hi⟩ := deref_eq_ok.1 h2
      refine ⟨p, deref_of_get ?_, h3⟩
      have hlt := lt_of_get hi
      simp only [List.length_append, List.length_singleton] at hlt
      by_cases hiN : i = g.nodes.length
      · subst hiN
        simp only [List.getElem?_append_right (le_refl _), Nat.sub_self, List.getElem?_cons_zero,
          Option.some.injEq] at hi
        subst hi
        simp [Node.ctor] at h3
      · rw [List.getElem?_append_left (by omega)] at hi
        exact hi
    · rintro ⟨p, h2, h3⟩
      obtain ⟨i, rfl, hi⟩ := deref_eq_ok.1 h2
      refine ⟨some i, p, rfl, deref_of_get ?_, h3⟩
      show (g.nodes ++ _)[i]? = some p
      rw [List.getElem?_append_left (lt_of_get hi)]
      exact hi

/-! ## Adjacency of addresses -/

/-- C11: `prior_to(a, b)` on two addresses is true exactly when `a.same_type(b)` holds and
`b.offset()` is `a.offset() + 1`; it is false when the offsets are equal, when they are
not adjacent, and when the types differ. -/
theorem prior_to_iff (a b : Address) :
    (prior_to a b = true ↔ a.same_type b = true ∧ b.offset = a.offset + 1) ∧
    (a.offset = b.offset → prior_to a b = false) ∧
    (b.offset ≠ a.offset + 1 → prior_to a b = false) ∧
    (a.same_type b = false → prior_to a b = false) := by
  refine ⟨?_, ?_, ?_, ?_⟩
  · simp only [prior_to, Bool.and_eq_true, decide_eq_true_eq]
    constructor
    · rintro ⟨h1, h2⟩; exact ⟨h1, h2.symm⟩
    · rintro ⟨h1, h2⟩; exact ⟨h1, h2.symm⟩
  · intro h
    simp only [prior_to, Bool.and_eq_false_iff, decide_eq_false_iff_not]
    right; omega
  · intro h
    simp only [prior_to, Bool.and_eq_false_iff, decide_eq_false_iff_not]
    right; exact fun hc => h hc.symm
  · intro h
    simp [prior_to, h]

theorem first_child_address_ok {g : Graph} {e : Expr} {x : Address} :
    Expr.first_child_address g e = .ok x ↔
      ∃ n c t, g.deref e = .ok n ∧ n.ch[0]? = some c ∧ g.deref c = .ok t ∧
        t.type = NodeType.addr ∧ t._addr = x := by
  constructor
  · intro h
    simp only [Expr.first_child_address] at h
    cases hd : g.deref e with
    | error f => simp [hd] at h
    | ok n =>
      simp only [hd] at h
      cases hc : n.ch[0]? with
      | none => simp [hc] at h
      | some c =>
        simp only [hc] at h
        cases hd2 : g.deref c with
        | error f => simp [hd2] at h
        | ok t =>
          simp only [hd2] at h
          by_cases ht : t.type = NodeType.addr
          · simp only [Node.get_address, TC_ASSERT, ht, decide_True, if_true,
              Except.ok.injEq] at h
            exact ⟨n, c, t, rfl, hc, hd2, ht, h⟩
          · simp [Node.get_address, TC_ASSERT, ht] at h
  · rintro ⟨n, c, t, h1, h2, h3, h4, rfl⟩
    simp [Expr.first_child_address, Node.get_address, TC_ASSERT, h1, h2, h3, h4]

/-- C12: `prior_to(a, b)` on two handles returns a value exactly when both reference
`pointer` nodes whose first children reference `addr` nodes, and the value is then
`prior_to` of the two addresses these `addr` nodes hold; in every other case the call
fails, on the assertion when `a` and `b` are non-empty and one of them is no `pointer`
node. -/
theorem prior_to_expr_unwraps (rhs_first : Bool) (g : Graph) (a b : Expr) :
    (∀ r, prior_to_expr rhs_first g a b = .ok r ↔
      ∃ na nb ca cb ta tb,
        g.deref a = .ok na ∧ na.type = NodeType.pointer ∧
        g.deref b = .ok nb ∧ nb.type = NodeType.pointer ∧
        na.ch[0]? = some ca ∧ g.deref ca = .ok ta ∧ ta.type = NodeType.addr ∧
        nb.ch[0]? = some cb ∧ g.deref cb = .ok tb ∧ tb.type = NodeType.addr ∧
        r = prior_to ta._addr tb._addr) ∧
    (∀ na nb, g.deref a = .ok na → g.deref b = .ok nb →
      (na.type ≠ NodeType.pointer ∨ nb.type ≠ NodeType.pointer) →
      prior_to_expr rhs_first g a b = .error Fault.assertion) := by
  refine ⟨?_, ?_⟩
  · intro r
    constructor
    · intro h
      simp only [prior_to_expr] at h
      cases hda : g.deref a with
      | error f => simp [hda] at h
      | ok na =>
        simp only [hda] at h
        by_cases hpa : na.type = NodeType.pointer
        swap
        · simp [hpa, TC_ASSERT] at h
        simp only [hpa, if_true] at h
        cases hdb : g.deref b with
        | error f => simp [hdb] at h
        | ok nb =>
          simp only [hdb] at h
          by_cases hpb : nb.type = NodeType.pointer
          swap
          · simp [hpb, TC_ASSERT] at h
          simp only [hpb, decide_True, TC_ASSERT, if_true] at h
          cases hfa : Expr.first_child_address g a with
          | error f =>
            cases rhs_first
            · simp [hfa] at h
            · cases hfb : Expr.first_child_address g b <;> simp [hfa, hfb] at h
          | ok xa =>
            cases hfb : Expr.first_child_address g b with
            | error f => cases rhs_first <;> simp [hfa, hfb] at h
            | ok xb =>
              have hr : r = prior_to xa xb := by
                cases rhs_first <;> simp [hfa, hfb] at h <;> exact h.symm
              obtain ⟨na', ca, ta, h1, h2, h3, h4, h5⟩ := first_child_address_ok.1 hfa
              obtain ⟨nb', cb, tb, k1, k2, k3, k4, k5⟩ := first_child_address_ok.1 hfb
              rw [hda] at h1
              rw [hdb] at k1
              cases h1
              cases k1
              exact ⟨na, nb, ca, cb, ta, tb, rfl, hpa, rfl, hpb, h2, h3, h4, k2, k3, k4,
                by rw [hr, h5, k5]⟩
    · rintro ⟨na, nb, ca, cb, ta, tb, h1, h2, h3, h4, h5, h6, h7, h8, h9, h10, rfl⟩
      have hfa : Expr.first_child_address g a = .ok ta._addr :=
        first_child_address_ok.2 ⟨na, ca, ta, h1, h5, h6, h7, rfl⟩
      have hfb : Expr.first_child_address g b = .ok tb._addr :=
        first_child_address_ok.2 ⟨nb, cb, tb, h3, h8, h9, h10, rfl⟩
      cases rhs_first <;> simp [prior_to_expr, h1, h2, h3, h4, TC_ASSERT, hfa, hfb]
  · intro na nb h1 h3 hor
    by_cases hpa : na.type = NodeType.pointer
    · have hpb : nb.type ≠ NodeType.pointer := by
        rcases hor with h | h
        · exact absurd hpa h
        · exact h
      simp [prior_to_expr, h1, h3, hpa, hpb, TC_ASSERT]
    · simp [prior_to_expr, h1, hpa, TC_ASSERT]

/-! ## The counter of node ids -/

theorem build_id (k : Construction) (c : Int) : (k.build c).id = c := by
  cases k <;> rfl

theorem int_wrap_of_range {x : Int} (h1 : -2 ^ 31 ≤ x) (h2 : x < 2 ^ 31) : int_wrap x = x := by
  unfold int_wrap
  omega

/-- A sequence of constructions keeps the nodes that existed. -/
theorem construct_all_ext (ks : List Construction) :
    ∀ (g : Graph) (i : Nat) (m : Node), g.nodes[i]? = some m →
      (construct_all g ks).1.nodes[i]? = some m := by
  induction ks with
  | nil => intro g i m h; exact h
  | cons k ks ih =>
    intro g i m h
    exact ih (g.make_shared k.build).1 i m (make_shared_old _ h)

/-- A sequence of constructions during which the counter stays an `int` gives the nodes it
builds the successive values of the counter as ids. -/
theorem construct_all_ids (ks : List Construction) :
    ∀ g : Graph, -2 ^ 31 ≤ g.counter → g.counter + (ks.length : Int) ≤ 2 ^ 31 →
      (construct_all g ks).2.map (construct_all g ks).1.id_of =
        (List.range ks.length).map (fun (i : Nat) => some (g.counter + (i : Int))) := by
  induction ks with
  | nil => intro g _ _; simp [construct_all]
  | cons k ks ih =>
    intro g hlo hhi
    have hnew : (construct_all (g.make_shared k.build).1 ks).1.id_of (some g.nodes.length) =
        some g.counter := by
      have := construct_all_ext ks _ _ _ (make_shared_new g k.build)
      simp only [Graph.id_of, deref_of_get this, build_id]
    cases ks with
    | nil =>
      simp only [construct_all, make_shared_snd] at hnew ⊢
      simp [hnew, List.range_succ]
    | cons k' ks' =>
      simp only [List.length_cons] at hhi
      push_cast at hhi
      have hcnt : (g.make_shared k.build).1.counter = g.counter + 1 :=
        int_wrap_of_range (by omega) (by omega)
      have hids := ih (g.make_shared k.build).1 (by rw [hcnt]; omega)
        (by rw [hcnt]; simp only [List.length_cons]; push_cast; omega)
      rw [hcnt] at hids
      simp only [List.length_cons] at hids
      rw [construct_all]
      simp only [List.map_cons, make_shared_snd, hnew, hids, List.length_cons]
      rw [List.range_succ_eq_map (ks'.length + 1)]
      simp only [List.map_cons, List.map_map, Nat.cast_zero, add_zero, List.cons.injEq, true_and]
      apply List.map_congr_left
      intro i _
      simp only [Function.comp, Nat.cast_succ]
      congr 1
      ring

/-- C13: every construction of a node gives it the current value of the counter, an `int`,
as id and increments the counter, by one while the result is a value of an `int`, and
`reset_counter` sets the counter to 0; so after `reset_counter` the construction of `N`
nodes, for every `N` whose ids `0 .. N-1` are values of an `int`, gives them the ids
`0, 1, ..., N-1` in construction order, and these ids are strictly increasing in
construction order. -/
theorem ids_follow_counter (g : Graph) (ks : List Construction)
    (hN : ks.length ≤ 2 ^ 31) :
    (∀ (h : Graph) (k : Construction), -2 ^ 31 ≤ h.counter → h.counter < 2 ^ 31 →
      (h.make_shared k.build).1.id_of (h.make_shared k.build).2 = some h.counter ∧
      (h.make_shared k.build).1.counter = int_wrap (h.counter + 1) ∧
      (h.counter < 2 ^ 31 - 1 → (h.make_shared k.build).1.counter = h.counter + 1)) ∧
    (Node.reset_counter g).counter = 0 ∧ (Node.reset_counter g).nodes = g.nodes ∧
    (construct_all (Node.reset_counter g) ks).2.map
        (construct_all (Node.reset_counter g) ks).1.id_of =
      (List.range ks.length).map (fun (i : Nat) => some (i : Int)) ∧
    (∃ ids : List Int,
      (construct_all (Node.reset_counter g) ks).2.map
          (construct_all (Node.reset_counter g) ks).1.id_of = ids.map some ∧
      ids.length = ks.length ∧
      ids.Pairwise (fun x y => x < y) ∧ ∀ x ∈ ids, 0 ≤ x ∧ x < 2 ^ 31) := by
  have hids : (construct_all (Node.reset_counter g) ks).2.map
      (construct_all (Node.reset_counter g) ks).1.id_of =
      (List.range ks.length).map (fun (i : Nat) => some (i : Int)) := by
    rw [construct_all_ids ks (Node.reset_counter g) (by simp [Node.reset_counter])
      (by simp only [Node.reset_counter]; push_cast; omega)]
    simp [Node.reset_counter]
  refine ⟨?_, rfl, rfl, hids, (List.range ks.length).map (fun (i : Nat) => (i : Int)), ?_, ?_,
    ?_, ?_⟩
  · intro h k h1 _
    refine ⟨?_, rfl, fun h2 => int_wrap_of_range (by omega) (by omega)⟩
    simp only [Graph.id_of, make_shared_snd, deref_of_get (make_shared_new h k.build), build_id]
  · rw [hids, List.map_map]
    rfl
  · simp
  · rw [List.pairwise_map]
    refine List.Pairwise.imp ?_ (List.pairwise_lt_range ks.length)
    intro a b hab
    exact_mod_cast hab
  · intro x hx
    simp only [List.mem_map, List.mem_range] at hx
    obtain ⟨i, hi, rfl⟩ := hx
    constructor
    · positivity
    · have : (i : Int) < (ks.length : Int) := by exact_mod_cast hi
      have : (ks.length : Int) ≤ 2 ^ 31 := by exact_mod_cast hN
      omega

/-- An instance: three constructions after a reset get the ids 0, 1, 2. -/
theorem ids_follow_counter_witness :
    [Construction.ctor NodeType.addr, Construction.ctor1 NodeType.pointer (some 2),
      Construction.ctor2 NodeType.add (some 0) (some 1)].length ≤ 2 ^ 31 ∧
    (construct_all (Node.reset_counter sample_graph)
        [Construction.ctor NodeType.addr, Construction.ctor1 NodeType.pointer (some 2),
          Construction.ctor2 NodeType.add (some 0) (some 1)]).2.map
      (construct_all (Node.reset_counter sample_graph)
        [Construction.ctor NodeType.addr, Construction.ctor1 NodeType.pointer (some 2),
          Construction.ctor2 NodeType.add (some 0) (some 1)]).1.id_of =
      (List.range 3).map (fun (i : Nat) => some (i : Int)) :=
  ⟨by decide,
    (ids_follow_counter sample_graph
      [Construction.ctor NodeType.addr, Construction.ctor1 NodeType.pointer (some 2),
        Construction.ctor2 NodeType.add (some 0) (some 1)] (by decide)).2.2.2.1⟩

/-! ## Store: failure and frame -/

/-- On a non-empty receiver, a `store` whose pointer argument references a node that is
no `pointer` node stops on the assertion, having allocated the store node only. -/
theorem store_assert_fails {g : Graph} (r : Nat) {p : Expr} (v : Expr) {pn : Node}
    (hp : g.deref p = .ok pn) (hpt : pn.type ≠ NodeType.pointer) :
    Expr.store g (some r) (Ref.other p) (Ref.other v) =
      ⟨(g.make_shared (fun c => Node.ctor c NodeType.store)).1, some r,
        .error Fault.assertion⟩ := by
  have hp2 : (g.make_shared (fun c => Node.ctor c NodeType.store)).1.deref p = .ok pn :=
    make_shared_deref _ hp
  simp [Expr.store, Expr.to_bool, Expr.to_void_ptr, Ref.get, hp2, TC_ASSERT, hpt]

/-- C14: for a receiver that is empty or valid and a non-empty pointer argument that
references the node `pn`, `store` stops on the assertion exactly when `pn` is no `pointer`
node and returns a handle exactly when it is one; when it fails, every node that existed
keeps all its fields, its children included, and an empty receiver is left referencing a
new `combine` node without children. -/
theorem store_fails_iff (g : Graph) (r : Expr) (p v : Ref) (pn : Node)
    (hr : r = none ∨ g.valid r) (hp : g.deref (p.get r) = .ok pn) :
    ((Expr.store g r p v).result = .error Fault.assertion ↔ pn.type ≠ NodeType.pointer) ∧
    ((∃ s, (Expr.store g r p v).result = .ok s) ↔ pn.type = NodeType.pointer) ∧
    (pn.type ≠ NodeType.pointer →
      (∀ (i : Nat) (n : Node), g.nodes[i]? = some n →
        (Expr.store g r p v).graph.nodes[i]? = some n) ∧
      (r ≠ none → (Expr.store g r p v).receiver = r) ∧
      (r = none → ∃ c, (Expr.store g r p v).graph.deref (Expr.store g r p v).receiver = .ok c ∧
        ¬ g.valid (Expr.store g r p v).receiver ∧ c.type = NodeType.combine ∧ c.ch = [])) := by
  rcases hr with rfl | ⟨ri, c, rfl, hc⟩
  · cases p with
    | this => simp [Ref.get, Graph.deref] at hp
    | other pe =>
      simp only [Ref.get] at hp
      rw [store_empty]
      simp only [Ref.get]
      have hp0 : (g.make_shared (fun c => Node.ctor c NodeType.combine)).1.deref pe = .ok pn :=
        make_shared_deref _ hp
      have hnew := make_shared_new g (fun c => Node.ctor c NodeType.combine)
      by_cases hpt : pn.type = NodeType.pointer
      · rw [store_nonempty _ hnew hp0 hpt]
        simp [hpt]
      · rw [store_assert_fails _ _ hp0 hpt]
        refine ⟨by simp [hpt], by simp [hpt], fun _ => ⟨?_, by simp, ?_⟩⟩
        · intro i n hn
          exact make_shared_old (fun c => Node.ctor c NodeType.store)
            (make_shared_old (fun c => Node.ctor c NodeType.combine) hn)
        · intro _
          exact ⟨Node.ctor g.counter NodeType.combine,
            deref_of_get (make_shared_old (fun c => Node.ctor c NodeType.store) hnew),
            not_valid_length g, rfl, rfl⟩
  · rw [store_resolve]
    by_cases hpt : pn.type = NodeType.pointer
    · rw [store_nonempty _ hc hp hpt]
      simp [hpt]
    · rw [store_assert_fails _ _ hp hpt]
      refine ⟨by simp [hpt], by simp [hpt], fun _ => ⟨?_, by simp, by simp⟩⟩
      intro i n hn
      exact make_shared_old (fun c => Node.ctor c NodeType.store) hn

/-- An instance: `r.store(i, i)` on an empty `r` with an `index` node `i` as pointer
argument. -/
theorem store_fails_iff_witness :
    ((none : Expr) = none ∨ mixed_graph.valid none) ∧
    mixed_graph.deref ((Ref.other (some 1)).get none) =
      .ok { Node.ctor 1 NodeType.index with data_type := DataType.i32 } ∧
    (Expr.store mixed_graph none (Ref.other (some 1)) (Ref.other (some 1))).result =
      .error Fault.assertion ∧
    ((Expr.store mixed_graph none (Ref.other (some 1)) (Ref.other (some 1))).result =
        .error Fault.assertion ↔ NodeType.index ≠ NodeType.pointer) ∧
    ((∃ s, (Expr.store mixed_graph none (Ref.other (some 1)) (Ref.other (some 1))).result =
        .ok s) ↔ NodeType.index = NodeType.pointer) :=
  have h := store_fails_iff mixed_graph none (Ref.other (some 1)) (Ref.other (some 1))
    { Node.ctor 1 NodeType.index with data_type := DataType.i32 } (Or.inl rfl) rfl
  ⟨Or.inl rfl, rfl, rfl, h.1, h.2.1⟩

/-- C20: on a non-empty receiver that references the node `c`, of whatever opcode, a
`store` with a pointer argument that references a `pointer` node returns a new store node
with the children `[p, v]`, leaves the receiver referencing the same node, replaces that
node by `c` with the returned handle appended to its children and every other field
unchanged, and leaves every other node that existed as it was. -/
theorem store_appends (g : Graph) (r : Nat) (c : Node) (p v : Ref) (pn : Node)
    (hr : g.nodes[r]? = some c) (hp : g.deref (p.get (some r)) = .ok pn)
    (hpt : pn.type = NodeType.pointer) :
    ∃ s sn, (Expr.store g (some r) p v).result = .ok s ∧
      (Expr.store g (some r) p v).receiver = some r ∧ ¬ g.valid s ∧
      (Expr.store g (some r) p v).graph.nodes[r]? = some { c with ch := c.ch ++ [s] } ∧
      (∀ (i : Nat) (n : Node), i ≠ r → g.nodes[i]? = some n →
        (Expr.store g (some r) p v).graph.nodes[i]? = some n) ∧
      (Expr.store g (some r) p v).graph.deref s = .ok sn ∧ sn.type = NodeType.store ∧
      sn.ch = [p.get (some r), v.get (some r)] := by
  have hlr := lt_of_get hr
  rw [store_resolve, store_nonempty _ hr hp hpt]
  refine ⟨some g.nodes.length,
    { Node.ctor g.counter NodeType.store with ch := [p.get (some r), v.get (some r)] },
    rfl, rfl, not_valid_length g, ?_, ?_, deref_of_get ?_, rfl, rfl⟩
  · show ((g.nodes ++ [_]).set r _)[r]? = _
    rw [set_append_get _ _ _ hlr]
    simp
  · intro i n hi hn
    show ((g.nodes ++ [_]).set r _)[i]? = _
    rw [set_append_get _ _ _ hlr]
    have : i ≠ g.nodes.length := by
      have := lt_of_get hn
      omega
    simp [hi, this, hn]
  · show ((g.nodes ++ [_]).set r _)[g.nodes.length]? = _
    rw [set_append_get _ _ _ hlr]
    have : g.nodes.length ≠ r := by omega
    simp [this]

/-- An instance: `i.store(p, i)` on a receiver that references an `index` node. -/
theorem store_appends_witness :
    mixed_graph.nodes[1]? = some { Node.ctor 1 NodeType.index with data_type := DataType.i32 } ∧
    mixed_graph.deref ((Ref.other (some 0)).get (some 1)) = .ok (Node.ctor 0 NodeType.pointer) ∧
    (Node.ctor 0 NodeType.pointer).type = NodeType.pointer ∧
    ∃ s sn, (Expr.store mixed_graph (some 1) (Ref.other (some 0)) Ref.this).result = .ok s ∧
      (Expr.store mixed_graph (some 1) (Ref.other (some 0)) Ref.this).receiver = some 1 ∧
      ¬ mixed_graph.valid s ∧
      (Expr.store mixed_graph (some 1) (Ref.other (some 0)) Ref.this).graph.nodes[1]? =
        some { ({ Node.ctor 1 NodeType.index with data_type := DataType.i32 } : Node) with
          ch := ({ Node.ctor 1 NodeType.index with data_type := DataType.i32 } : Node).ch ++ [s] } ∧
      (∀ (i : Nat) (n : Node), i ≠ 1 → mixed_graph.nodes[i]? = some n →
        (Expr.store mixed_graph (some 1) (Ref.other (some 0)) Ref.this).graph.nodes[i]? =
          some n) ∧
      (Expr.store mixed_graph (some 1) (Ref.other (some 0)) Ref.this).graph.deref s = .ok sn ∧
      sn.type = NodeType.store ∧
      sn.ch = [(Ref.other (some 0)).get (some 1), Ref.this.get (some 1)] :=
  ⟨rfl, rfl, rfl,
    store_appends mixed_graph 1 _ (Ref.other (some 0)) Ref.this _ rfl rfl rfl⟩

/-! ## Implicit loads, comparisons and vectorization width -/

/-- C15: on a non-empty handle `e`, `load_if_pointer` returns, when `e` references a
`pointer` node, a newly allocated `load` node whose only child is `e`, and otherwise `e`
itself in an unchanged state; its result never references a `pointer` node, and applying
`load_if_pointer` to the result returns the result itself and allocates nothing. -/
theorem load_if_pointer_idempotent (g : Graph) (e : Expr) (n : Node)
    (he : g.deref e = .ok n) :
    ∃ g1 e1 n1, Expr.load_if_pointer g e = .ok (g1, e1) ∧ g1.deref e1 = .ok n1 ∧
      (n.type = NodeType.pointer →
        ¬ g.valid e1 ∧ n1.type = NodeType.load ∧ n1.ch = [e] ∧
        g1.nodes.length = g.nodes.length + 1 ∧
        ∀ (i : Nat) (m : Node), g.nodes[i]? = some m → g1.nodes[i]? = some m) ∧
      (n.type ≠ NodeType.pointer → e1 = e ∧ g1 = g) ∧
      n1.type ≠ NodeType.pointer ∧
      Expr.load_if_pointer g1 e1 = .ok (g1, e1) := by
  obtain ⟨g1, e1, hrun, hext, hlen, hptr, hnot⟩ := load_if_pointer_spec he
  by_cases hp : n.type = NodeType.pointer
  · obtain ⟨rfl, hl, hnew⟩ := hptr hp
    have hd : g1.deref (some g.nodes.length) = .ok (Node.ctor1 g.counter NodeType.load e) :=
      deref_of_get hnew
    refine ⟨g1, _, _, hrun, hd, fun _ => ⟨not_valid_length g, rfl, rfl, hl, hext⟩,
      fun hc => absurd hp hc, by simp [Node.ctor1, Node.ctor], ?_⟩
    simp [Expr.load_if_pointer, hd, Node.ctor1, Node.ctor]
  · obtain ⟨rfl, rfl⟩ := hnot hp
    refine ⟨g1, e1, n, hrun, he, fun hc => absurd hc hp, fun _ => ⟨rfl, rfl⟩, hp, hrun⟩

/-- An instance: `load_if_pointer(p)` on a `pointer` node `p`. -/
theorem load_if_pointer_idempotent_witness :
    sample_graph.deref (some 0) = .ok (Node.ctor 0 NodeType.pointer) ∧
    ∃ g1 e1 n1, Expr.load_if_pointer sample_graph (some 0) = .ok (g1, e1) ∧
      g1.deref e1 = .ok n1 ∧
      ((Node.ctor 0 NodeType.pointer).type = NodeType.pointer →
        ¬ sample_graph.valid e1 ∧ n1.type = NodeType.load ∧ n1.ch = [some 0] ∧
        g1.nodes.length = sample_graph.nodes.length + 1 ∧
        ∀ (i : Nat) (m : Node), sample_graph.nodes[i]? = some m → g1.nodes[i]? = some m) ∧
      ((Node.ctor 0 NodeType.pointer).type ≠ NodeType.pointer →
        e1 = some 0 ∧ g1 = sample_graph) ∧
      n1.type ≠ NodeType.pointer ∧
      Expr.load_if_pointer g1 e1 = .ok (g1, e1) :=
  ⟨rfl, load_if_pointer_idempotent sample_graph (some 0) _ rfl⟩

theorem cmp_form (g : Graph) (a b : Expr) (k : CmpType) :
    (let (g1, n) := Expr.create2 g NodeType.cmp a b
     match g1.write n (fun m => { m with _value := write32 m._value k.to_int }) with
     | .error f => (Except.error f : Except Fault (Graph × Expr))
     | .ok g2 => .ok (g2, n)) =
    .ok (⟨g.nodes ++ [{ Node.ctor2 g.counter NodeType.cmp a b with
            _value := write32 0 k.to_int }], int_wrap (g.counter + 1)⟩, some g.nodes.length) := by
  simp [Expr.create2, Graph.make_shared, Graph.write, Graph.set, Node.ctor2, Node.ctor]

/-- C16: `cmp_ne(a, b)` and `cmp_lt(a, b)` each return a newly allocated node of opcode
`cmp` with exactly the two children `a` then `b`, the operands themselves, whose immediate
slot read as a comparison kind is `ne`, respectively `lt`; the nodes that existed are
unchanged. -/
theorem cmp_builders (g : Graph) (a b : Expr) :
    (∃ g' t n, cmp_ne g a b = .ok (g', t) ∧ ¬ g.valid t ∧ g'.deref t = .ok n ∧
      n.type = NodeType.cmp ∧ n.ch = [a, b] ∧ n.value_cmp = some CmpType.ne ∧
      g'.nodes.length = g.nodes.length + 1 ∧
      ∀ (i : Nat) (m : Node), g.nodes[i]? = some m → g'.nodes[i]? = some m) ∧
    (∃ g' t n, cmp_lt g a b = .ok (g', t) ∧ ¬ g.valid t ∧ g'.deref t = .ok n ∧
      n.type = NodeType.cmp ∧ n.ch = [a, b] ∧ n.value_cmp = some CmpType.lt ∧
      g'.nodes.length = g.nodes.length + 1 ∧
      ∀ (i : Nat) (m : Node), g.nodes[i]? = some m → g'.nodes[i]? = some m) := by
  have hext : ∀ (x : Node) (c : Int) (i : Nat) (m : Node), g.nodes[i]? = some m →
      (Graph.mk (g.nodes ++ [x]) c).nodes[i]? = some m := by
    intro x c i m hm
    show (g.nodes ++ [x])[i]? = some m
    rw [List.getElem?_append_left (lt_of_get hm)]; exact hm
  have hne : CmpType.of_int (read32 (write32 0 CmpType.ne.to_int)) = some CmpType.ne := by
    decide
  have hlt : CmpType.of_int (read32 (write32 0 CmpType.lt.to_int)) = some CmpType.lt := by
    decide
  refine ⟨⟨_, _, { Node.ctor2 g.counter NodeType.cmp a b with
      _value := write32 0 CmpType.ne.to_int }, cmp_form g a b CmpType.ne, not_valid_length g,
      deref_of_get (by simp), rfl, rfl, hne, by simp, hext _ _⟩,
    ⟨_, _, { Node.ctor2 g.counter NodeType.cmp a b with
      _value := write32 0 CmpType.lt.to_int }, cmp_form g a b CmpType.lt, not_valid_length g,
      deref_of_get (by simp), rfl, rfl, hlt, by simp, hext _ _⟩⟩

/-- C17: for a node whose number of members fits an `int`, `group_size()` is the number
of members, `num_groups()` reads back the `int` last written through it, and `vv_width()`
is the `int` product `group_size() * num_groups()`, which is the product of the two
numbers whenever that product is a value of an `int`; a node with 4 members and
`num_groups` set to 2 reports the group size 4 and the width 8, and with `num_groups` set
to 536870912, where the product 2147483648 is no `int`, the width -2147483648. -/
theorem vv_width_product (n : Node) (hsize : n.members.length < 2 ^ 31) :
    n.group_size = (n.members.length : Int) ∧
    (∀ v : Int, -2 ^ 31 ≤ v → v < 2 ^ 31 →
      (n.set_num_groups v).num_groups = some v ∧
      (n.set_num_groups v).group_size = (n.members.length : Int) ∧
      (n.set_num_groups v).vv_width = some (int_wrap ((n.members.length : Int) * v)) ∧
      (-2 ^ 31 ≤ (n.members.length : Int) * v → (n.members.length : Int) * v < 2 ^ 31 →
        (n.set_num_groups v).vv_width = some ((n.members.length : Int) * v))) ∧
    (∀ v w : Int, -2 ^ 31 ≤ w → w < 2 ^ 31 →
      ((n.set_num_groups v).set_num_groups w).num_groups = some w) ∧
    (∀ k : Int, n.num_groups = some k → -2 ^ 31 ≤ k → k < 2 ^ 31 →
      n.vv_width = some (int_wrap (n.group_size * k)) ∧
      (-2 ^ 31 ≤ n.group_size * k → n.group_size * k < 2 ^ 31 →
        n.vv_width = some (n.group_size * k))) ∧
    (quad_node.set_num_groups 2).group_size = 4 ∧
    (quad_node.set_num_groups 2).vv_width = some 8 ∧
    (quad_node.set_num_groups 536870912).vv_width = some (-2147483648) := by
  have hg : n.group_size = (n.members.length : Int) := int_of_size_small hsize
  refine ⟨hg, ?_, fun _ _ _ _ => rfl, ?_, by decide, by decide, by decide⟩
  · intro v _ _
    have hg' : (n.set_num_groups v).group_size = (n.members.length : Int) := hg
    have hw : (n.set_num_groups v).vv_width =
        some (int_wrap ((n.members.length : Int) * v)) := by
      show some (int_wrap ((n.set_num_groups v).group_size * v)) = _
      rw [hg']
    refine ⟨rfl, hg', hw, fun h1 h2 => ?_⟩
    rw [hw, int_wrap_of_range h1 h2]
  · intro k hk _ _
    have hw : n.vv_width = some (int_wrap (n.group_size * k)) := by
      simp [Node.vv_width, hk]
    refine ⟨hw, fun h1 h2 => ?_⟩
    rw [hw, int_wrap_of_range h1 h2]

/-- An instance: a node with four members whose `num_groups` is set to 2. -/
theorem vv_width_product_witness :
    quad_node.members.length < 2 ^ 31 ∧
    quad_node.group_size = (quad_node.members.length : Int) ∧
    quad_node.members.length = 4 ∧
    (quad_node.set_num_groups 2).num_groups = some 2 ∧
    (quad_node.set_num_groups 2).vv_width = some ((quad_node.members.length : Int) * 2) ∧
    (quad_node.set_num_groups 2).vv_width = some 8 :=
  have h := vv_width_product quad_node (by decide)
  ⟨by decide, h.1, rfl, (h.2.1 2 (by decide) (by decide)).1,
    (h.2.1 2 (by decide) (by decide)).2.2.2 (by decide) (by decide), h.2.2.2.2.2.1⟩

/-- C19: the `load` node that `load_if_pointer` builds over a `pointer` node, and the one
the free function `load` builds, have the data type `f32` whatever the data type of the
node they wrap; so for two operands that reference `pointer` nodes of one data type `d`,
the node of `a op b` has the data type `d` and its two children are `load` nodes of data
type `f32` over `a` and over `b`. -/
theorem implicit_load_is_f32 :
    (∀ (g : Graph) (e : Expr) (n : Node), g.deref e = .ok n → n.type = NodeType.pointer →
      ∃ g1 e1 l, Expr.load_if_pointer g e = .ok (g1, e1) ∧ g1.deref e1 = .ok l ∧
        l.type = NodeType.load ∧ l.ch = [e] ∧ l.data_type = DataType.f32) ∧
    (∀ (g : Graph) (a : Expr),
      ∃ g1 e1 l, load g a = .ok (g1, e1) ∧ g1.deref e1 = .ok l ∧
        l.type = NodeType.load ∧ l.ch = [a] ∧ l.data_type = DataType.f32) ∧
    (∀ (op : BinaryOp) (rhs_first : Bool) (g : Graph) (a b : Expr) (na nb : Node),
      g.deref a = .ok na → g.deref b = .ok nb →
      na.type = NodeType.pointer → nb.type = NodeType.pointer →
      na.data_type = nb.data_type →
      ∃ g' t nt a' b' la lb, op.apply rhs_first g a b = .ok (g', t) ∧
        g'.deref t = .ok nt ∧ nt.data_type = na.data_type ∧ nt.ch = [a', b'] ∧
        g'.deref a' = .ok la ∧ la.type = NodeType.load ∧ la.ch = [a] ∧
        la.data_type = DataType.f32 ∧
        g'.deref b' = .ok lb ∧ lb.type = NodeType.load ∧ lb.ch = [b] ∧
        lb.data_type = DataType.f32) := by
  refine ⟨?_, ?_, ?_⟩
  · intro g e n he hp
    obtain ⟨g1, e1, hrun, -, -, hptr, -⟩ := load_if_pointer_spec he
    obtain ⟨rfl, -, hnew⟩ := hptr hp
    exact ⟨g1, _, _, hrun, deref_of_get hnew, rfl, rfl, rfl⟩
  · intro g a
    have hform : load g a = .ok (⟨g.nodes ++ [{ Node.ctor g.counter NodeType.load with ch := [a] }],
        int_wrap (g.counter + 1)⟩, some g.nodes.length) := by
      simp [load, Expr.create0, Graph.make_shared, Graph.write, Graph.set, Node.ctor]
    exact ⟨_, _, { Node.ctor g.counter NodeType.load with ch := [a] }, hform,
      deref_of_get (by simp), rfl, rfl, rfl⟩
  · intro op rhs_first g a b na nb ha hb hpa hpb hty
    obtain ⟨ia, rfl, hia⟩ := deref_eq_ok.1 ha
    obtain ⟨ib, rfl, hib⟩ := deref_eq_ok.1 hb
    cases rhs_first
    · obtain ⟨g1, a1, h1, e1, -, p1, -⟩ := load_if_pointer_spec ha
      have hb1 : g1.deref (some ib) = .ok nb := deref_of_get (e1 _ _ hib)
      obtain ⟨g2, b1, h2, e2, -, p2, -⟩ := load_if_pointer_spec hb1
      obtain ⟨rfl, -, hnewa⟩ := p1 hpa
      obtain ⟨rfl, -, hnewb⟩ := p2 hpb
      have htail := binary_op_tail op.name (some g.nodes.length) (some g1.nodes.length)
        (deref_of_get (e2 _ _ (e1 _ _ hib)))
      have hrun : op.apply false g (some ia) (some ib) = .ok
          (({ nodes := g2.nodes ++ [{ Node.ctor2 g2.counter op.name (some g.nodes.length)
                (some g1.nodes.length) with data_type := nb.data_type }],
              counter := int_wrap (g2.counter + 1) } : Graph), some g2.nodes.length) := by
        simp only [BinaryOp.apply, Expr.binary_op, ha, hb, hty, TC_ASSERT, decide_True,
          if_true, h1, h2]
        exact htail
      have hext : ∀ (i : Nat) (n : Node), g2.nodes[i]? = some n →
          (g2.nodes ++ [{ Node.ctor2 g2.counter op.name (some g.nodes.length)
                (some g1.nodes.length) with data_type := nb.data_type }])[i]? = some n := by
        intro i n hn
        rw [List.getElem?_append_left (lt_of_get hn)]; exact hn
      exact ⟨_, _, { Node.ctor2 g2.counter op.name (some g.nodes.length)
          (some g1.nodes.length) with data_type := nb.data_type }, _, _, _, _, hrun,
        deref_of_get (by simp), hty.symm, rfl,
        deref_of_get (hext _ _ (e2 _ _ hnewa)), rfl, rfl, rfl,
        deref_of_get (hext _ _ hnewb), rfl, rfl, rfl⟩
    · obtain ⟨g1, b1, h1, e1, -, p1, -⟩ := load_if_pointer_spec hb
      have ha1 : g1.deref (some ia) = .ok na := deref_of_get (e1 _ _ hia)
      obtain ⟨g2, a1, h2, e2, -, p2, -⟩ := load_if_pointer_spec ha1
      obtain ⟨rfl, -, hnewb⟩ := p1 hpb
      obtain ⟨rfl, -, hnewa⟩ := p2 hpa
      have htail := binary_op_tail op.name (some g1.nodes.length) (some g.nodes.length)
        (deref_of_get (e2 _ _ (e1 _ _ hib)))
      have hrun : op.apply true g (some ia) (some ib) = .ok
          (({ nodes := g2.nodes ++ [{ Node.ctor2 g2.counter op.name (some g1.nodes.length)
                (some g.nodes.length) with data_type := nb.data_type }],
              counter := int_wrap (g2.counter + 1) } : Graph), some g2.nodes.length) := by
        simp only [BinaryOp.apply, Expr.binary_op, ha, hb, hty, TC_ASSERT, decide_True,
          if_true, h1, h2]
        exact htail
      have hext : ∀ (i : Nat) (n : Node), g2.nodes[i]? = some n →
          (g2.nodes ++ [{ Node.ctor2 g2.counter op.name (some g1.nodes.length)
                (some g.nodes.length) with data_type := nb.data_type }])[i]? = some n := by
        intro i n hn
        rw [List.getElem?_append_left (lt_of_get hn)]; exact hn
      exact ⟨_, _, { Node.ctor2 g2.counter op.name (some g1.nodes.length)
          (some g.nodes.length) with data_type := nb.data_type }, _, _, _, _, hrun,
        deref_of_get (by simp), hty.symm, rfl,
        deref_of_get (hext _ _ hnewa), rfl, rfl, rfl,
        deref_of_get (hext _ _ (e2 _ _ hnewb)), rfl, rfl, rfl⟩

/-! ## Visits and paths -/

theorem traversal_perm {g : Graph} {es l1 : List Expr}
    (h : Traversal g Order.parent_first es l1) :
    ∀ l2, Traversal g Order.child_first es l2 → l1.Perm l2 := by
  induction h with
  | nil => intro l2 h2; cases h2; exact List.Perm.refl _
  | cons hn _ _ ih1 ih2 =>
    intro l2 h2
    cases h2 with
    | cons hn' hsub' hrest' =>
      rw [hn] at hn'
      cases hn'
      have p1 := ih1 _ hsub'
      have p2 := ih2 _ hrest'
      simp only [if_true, reduceCtorEq, if_false]
      refine List.Perm.append ?_ p2
      exact (List.Perm.cons _ p1).trans (List.perm_append_singleton _ _).symm

theorem edge_of_child {g : Graph} {i k j : Nat} (hc : (g.ch_of i)[k]? = some (some j)) :
    g.edge i j := by
  have hmem : some j ∈ g.ch_of i := List.mem_iff_getElem?.2 ⟨k, hc⟩
  cases hn : g.nodes[i]? with
  | none => simp [Graph.ch_of, hn] at hmem
  | some n =>
    simp only [Graph.ch_of, hn] at hmem
    exact ⟨n, hn, hmem⟩

theorem walk_edge {g : Graph} : ∀ (ks : List Nat) (k i j : Nat),
    g.walk i (k :: ks) = some j → Relation.TransGen g.edge i j := by
  intro ks
  induction ks with
  | nil =>
    intro k i j h
    simp only [Graph.walk] at h
    cases hc : (g.ch_of i)[k]? with
    | none => simp [hc] at h
    | some c =>
      cases c with
      | none => simp [hc] at h
      | some j' =>
        simp only [hc, Option.some.injEq] at h
        subst h
        exact Relation.TransGen.single (edge_of_child hc)
  | cons k' ks ih =>
    intro k i j h
    simp only [Graph.walk] at h
    cases hc : (g.ch_of i)[k]? with
    | none => simp [hc] at h
    | some c =>
      cases c with
      | none => simp [hc] at h
      | some j' =>
        simp only [hc] at h
        exact Relation.TransGen.head (edge_of_child hc) (ih k' j' j h)

theorem walk_cons_iff {g : Graph} {i k t : Nat} {ks : List Nat} :
    g.walk i (k :: ks) = some t ↔
      ∃ j, (g.ch_of i)[k]? = some (some j) ∧ g.walk j ks = some t := by
  simp only [Graph.walk]
  cases hc : (g.ch_of i)[k]? with
  | none => simp
  | some c =>
    cases c with
    | none => simp
    | some j => simp

/-- The occurrences in a traversal sequence of the nodes of a set `T` are as many as the
paths that start at one of the roots and end in `T`: `ps` lists these paths without
repetition, each as the position of its root and the positions of the children taken. -/
theorem traversal_paths {g : Graph} {ord : Order} {es tr : List Expr}
    (h : Traversal g ord es tr) (T : Nat → Bool) :
    ∃ ps : List (Nat × List Nat), ps.Nodup ∧
      (∀ k ks, (k, ks) ∈ ps ↔
        ∃ j t, es[k]? = some (some j) ∧ g.walk j ks = some t ∧ T t = true) ∧
      tr.countP (hits T) = ps.length := by
  induction h with
  | nil => exact ⟨[], List.nodup_nil, by simp, by simp⟩
  | @cons i nd cs sub rest hn _ _ ih1 ih2 =>
    obtain ⟨ps1, nd1, mem1, len1⟩ := ih1
    obtain ⟨ps2, nd2, mem2, len2⟩ := ih2
    have hch : g.ch_of i = nd.ch := by simp [Graph.ch_of, hn]
    refine ⟨(if T i = true then [(0, [])] else []) ++
      (ps1.map (fun p => (0, p.1 :: p.2)) ++ ps2.map (fun p => (p.1 + 1, p.2))), ?_, ?_, ?_⟩
    · rw [List.nodup_append]
      refine ⟨by split <;> simp, ?_, ?_⟩
      · rw [List.nodup_append]
        refine ⟨nd1.map ?_, nd2.map ?_, ?_⟩
        · rintro ⟨a, b⟩ ⟨c, d⟩ hpq
          simp only [Prod.mk.injEq, List.cons.injEq, true_and] at hpq
          simp [hpq.1, hpq.2]
        · rintro ⟨a, b⟩ ⟨c, d⟩ hpq
          simp only [Prod.mk.injEq, add_left_inj] at hpq
          simp [hpq.1, hpq.2]
        · rw [List.disjoint_left]
          rintro ⟨a, b⟩ h1 h2
          simp only [List.mem_map, Prod.mk.injEq, Prod.exists] at h1 h2
          obtain ⟨_, _, _, h1, _⟩ := h1
          obtain ⟨_, _, _, h2, _⟩ := h2
          omega
      · rw [List.disjoint_left]
        rintro ⟨a, b⟩ h1 h2
        have hb : a = 0 ∧ b = [] := by
          split at h1
          · simpa using h1
          · simp at h1
        simp only [List.mem_append, List.mem_map, Prod.mk.injEq, Prod.exists] at h2
        rcases h2 with ⟨_, _, _, _, h2⟩ | ⟨_, _, _, h2, _⟩
        · rw [hb.2] at h2
          cases h2
        · omega
    · intro k ks
      simp only [List.mem_append, List.mem_map, Prod.mk.injEq, Prod.exists]
      cases k with
      | zero =>
        cases ks with
        | nil => simp [Graph.walk]
        | cons k' ks' =>
          simp only [walk_cons_iff, hch]
          simp [mem1]
          constructor
          · rintro ⟨j, h1, x, h2, h3⟩
            exact ⟨x, ⟨j, hch ▸ h1, h2⟩, h3⟩
          · rintro ⟨x, ⟨j, h1, h2⟩, h3⟩
            exact ⟨j, hch ▸ h1, x, h2, h3⟩
      | succ k'' => simp [mem2]
    · have hcount : List.countP (hits T)
          ((if ord = Order.parent_first then some i :: sub else sub ++ [some i]) ++ rest) =
          (if T i = true then 1 else 0) + sub.countP (hits T) + rest.countP (hits T) := by
        cases ord <;> simp [List.countP_cons, List.countP_append, hits] <;> omega
      rw [hcount, len1, len2]
      simp only [List.length_append, List.length_map]
      split <;> first | (simp; done) | (simp; omega)

theorem traversal_all_some {g : Graph} {ord : Order} {es tr : List Expr}
    (h : Traversal g ord es tr) : ∀ e ∈ tr, ∃ i, e = some i := by
  induction h with
  | nil => intro e he; simp at he
  | @cons i nd cs sub rest hn _ _ ih1 ih2 =>
    intro e he
    rw [List.mem_append] at he
    rcases he with he | he
    · split at he
      · rcases List.mem_cons.1 he with rfl | he
        · exact ⟨i, rfl⟩
        · exact ih1 e he
      · rcases List.mem_append.1 he with he | he
        · exact ih1 e he
        · exact ⟨i, by simpa using he⟩
    · exact ih2 e he

/-- The paths from the root of a traversal that end in a set `T`, listed without
repetition, are as many as the occurrences of the nodes of `T` in the sequence. -/
theorem root_paths {g : Graph} {ord : Order} {r : Nat} {tr : List Expr}
    (h : Traversal g ord [some r] tr) (T : Nat → Bool) :
    ∃ ps : List (List Nat), ps.Nodup ∧
      (∀ ks, ks ∈ ps ↔ ∃ t, g.walk r ks = some t ∧ T t = true) ∧
      tr.countP (hits T) = ps.length := by
  obtain ⟨ps, hnd, hmem, hlen⟩ := traversal_paths h T
  have hzero : ∀ k ks, (k, ks) ∈ ps → k = 0 := by
    intro k ks hk
    obtain ⟨j, t, h1, -⟩ := (hmem k ks).1 hk
    cases k with
    | zero => rfl
    | succ k => simp at h1
  refine ⟨ps.map Prod.snd, ?_, ?_, by simpa using hlen⟩
  · refine List.Nodup.map_on ?_ hnd
    rintro ⟨a, b⟩ ha ⟨c, d⟩ hc hbd
    simp only at hbd
    rw [hzero a b ha, hzero c d hc, hbd]
  · intro ks
    simp only [List.mem_map, Prod.exists, exists_eq_right]
    constructor
    · rintro ⟨k, hk⟩
      obtain ⟨j, t, h1, h2, h3⟩ := (hmem k ks).1 hk
      have hk0 := hzero k ks hk
      subst hk0
      simp only [List.getElem?_cons_zero, Option.some.injEq] at h1
      subst h1
      exact ⟨t, h2, h3⟩
    · rintro ⟨t, h2, h3⟩
      exact ⟨0, (hmem 0 ks).2 ⟨r, t, by simp, h2, h3⟩⟩

theorem count_eq_hits (n : Nat) (tr : List Expr) :
    tr.count (some n) = tr.countP (hits (fun t => decide (t = n))) := by
  rw [List.count]
  apply List.countP_congr
  intro e _
  cases e with
  | none => simp [hits]
  | some t => simp [hits]

theorem edge_iff_mem {g : Graph} {p n : Nat} : g.edge p n ↔ some n ∈ g.ch_of p := by
  cases hn : g.nodes[p]? with
  | none => simp [Graph.edge, Graph.ch_of, hn]
  | some m => simp [Graph.edge, Graph.ch_of, hn]

/-- A traversal sequence holds exactly the nodes reachable from one of its roots. -/
theorem traversal_mem_iff {g : Graph} {ord : Order} {es tr : List Expr}
    (h : Traversal g ord es tr) (p : Nat) :
    some p ∈ tr ↔ ∃ j, some j ∈ es ∧ g.reaches j p := by
  induction h with
  | nil => simp
  | @cons i nd cs sub rest hn _ _ ih1 ih2 =>
    have hmem : some p ∈
        ((if ord = Order.parent_first then some i :: sub else sub ++ [some i]) ++ rest) ↔
        p = i ∨ some p ∈ sub ∨ some p ∈ rest := by
      cases ord <;> first | (simp; done) | (simp; tauto)
    rw [hmem, ih1, ih2]
    constructor
    · rintro (rfl | ⟨j, hj, hr⟩ | ⟨j, hj, hr⟩)
      · exact ⟨p, by simp, Relation.ReflTransGen.refl⟩
      · exact ⟨i, by simp, Relation.ReflTransGen.head ⟨nd, hn, hj⟩ hr⟩
      · exact ⟨j, by simp [hj], hr⟩
    · rintro ⟨j, hj, hr⟩
      simp only [List.mem_cons, Option.some.injEq] at hj
      rcases hj with rfl | hj
      · rcases Relation.ReflTransGen.cases_head hr with h0 | ⟨c, ⟨m, hm, hc⟩, hcr⟩
        · exact Or.inl h0.symm
        · rw [hn] at hm
          cases hm
          exact Or.inr (Or.inl ⟨c, hc, hcr⟩)
      · exact Or.inr (Or.inr ⟨j, hj, hr⟩)

/-- The traversal of an acyclic graph from its root holds the root once. -/
theorem traversal_root_once {g : Graph} {ord : Order} {r : Nat} {tr : List Expr}
    (hdag : g.dag_from r) (h : Traversal g ord [some r] tr) : tr.count (some r) = 1 := by
  have hc := traversal_count h r
  have hz : Finset.sum (Finset.range g.nodes.length)
      (fun p => tr.count (some p) * (g.ch_of p).count (some r)) = 0 := by
    apply Finset.sum_eq_zero
    intro p _
    by_contra hne
    have h1 : 0 < tr.count (some p) :=
      Nat.pos_of_ne_zero (fun h0 => hne (by rw [h0, zero_mul]))
    have h2 : 0 < (g.ch_of p).count (some r) :=
      Nat.pos_of_ne_zero (fun h0 => hne (by rw [h0, mul_zero]))
    have hp : g.reaches r p := by
      obtain ⟨j, hj, hr⟩ := (traversal_mem_iff h p).1 (List.count_pos_iff.1 h1)
      simp only [List.mem_singleton, Option.some.injEq] at hj
      subst hj
      exact hr
    have he : g.edge p r := edge_iff_mem.2 (List.count_pos_iff.1 h2)
    exact hdag.2 r Relation.ReflTransGen.refl (Relation.TransGen.tail' hp he)
  rw [hz] at hc
  simpa using hc

/-- C5, as stated, fails: in the acyclic graph of `(x * x) + (x * x)` with the product
shared, every node is reachable from the root `add`, the leaf `x` has two incoming child
edges (both from `mul`), and `accept` visits it four times in either order. -/
theorem visits_not_in_edges :
    shared_example = .ok (shared_graph, some 0, some 1, some 2) ∧
      shared_graph.dag_from 2 ∧
      (∀ p, p < shared_graph.nodes.length → shared_graph.reaches 2 p) ∧
      shared_graph.in_edges 0 = 2 ∧
      (∃ tr, Expr.accept shared_graph 3 (some 2) ⟨Order.parent_first, []⟩ =
          .ok ⟨Order.parent_first, tr⟩ ∧ tr.count (some 0) = 4 ∧
          tr.count (some 0) ≠ shared_graph.in_edges 0) ∧
      (∃ tr, Expr.accept shared_graph 3 (some 2) ⟨Order.child_first, []⟩ =
          .ok ⟨Order.child_first, tr⟩ ∧ tr.count (some 0) = 4 ∧
          tr.count (some 0) ≠ shared_graph.in_edges 0) := by
  refine ⟨rfl, dag_of_children_below (by decide) (by decide), ?_, by decide,
    ⟨_, rfl, by decide, by decide⟩, ⟨_, rfl, by decide, by decide⟩⟩
  have h21 : shared_graph.edge 2 1 := ⟨_, rfl, by decide⟩
  have h10 : shared_graph.edge 1 0 := ⟨_, rfl, by decide⟩
  intro p hp
  have hp3 : p < 3 := hp
  interval_cases p
  · exact Relation.ReflTransGen.tail (Relation.ReflTransGen.single h21) h10
  · exact Relation.ReflTransGen.single h21
  · exact Relation.ReflTransGen.refl

/-- C5, amended: on an acyclic graph rooted at a non-empty handle, `accept` returns in
either order and visits exactly the nodes reachable from the root (the set `R`), the root
once and every node `n` once per path of child edges from the root to `n`. For a node `n`
other than the root this number is the sum, over the reachable nodes `p`, of the number of
visits of `p` times the number of child handles of `p` that reference `n`: each incoming
edge counts once per visit of its parent. So the number of visits of `n` is at least the
number of its incoming child edges from reachable nodes, and it is that number exactly
when every reachable parent of `n` is visited once. -/
theorem visits_per_edge (g : Graph) (r : Nat) (hdag : g.dag_from r) (ord : Order) :
    ∃ (tr : List Expr) (R : Finset Nat),
      (∀ fuel, g.nodes.length ≤ fuel →
        Expr.accept g fuel (some r) ⟨ord, []⟩ = .ok ⟨ord, tr⟩) ∧
      (∀ p, p ∈ R ↔ g.reaches r p) ∧
      (∀ e, e ∈ tr ↔ ∃ p, e = some p ∧ g.reaches r p) ∧
      tr.count (some r) = 1 ∧
      (∀ n, ∃ ps : List (List Nat), ps.Nodup ∧ (∀ ks, ks ∈ ps ↔ g.walk r ks = some n) ∧
        tr.count (some n) = ps.length) ∧
      (∀ n, n ≠ r → tr.count (some n) =
        Finset.sum R (fun p => tr.count (some p) * (g.ch_of p).count (some n))) ∧
      (∀ n, n ≠ r →
        Finset.sum R (fun p => (g.ch_of p).count (some n)) ≤ tr.count (some n)) ∧
      (∀ n, n ≠ r →
        (tr.count (some n) = Finset.sum R (fun p => (g.ch_of p).count (some n)) ↔
          ∀ p, g.reaches r p → g.edge p n → tr.count (some p) = 1)) := by
  have hterm : ∀ fuel, g.nodes.length ≤ fuel →
      ∃ v', Expr.accept g fuel (some r) ⟨ord, []⟩ = .ok v' :=
    fun fuel hf => accept_terminates hdag fuel ∅ r Relation.ReflTransGen.refl
      (by simp) (by simp) (by simpa using hf) _
  obtain ⟨v1, h1⟩ := hterm g.nodes.length (le_refl _)
  obtain ⟨tr, ttr, rfl⟩ := accept_traversal g _ _ _ _ h1
  have hmem : ∀ p, some p ∈ tr ↔ g.reaches r p := by
    intro p
    rw [traversal_mem_iff ttr p]
    simp
  have hR : ∀ p, p ∈ (Finset.range g.nodes.length).filter (fun p => some p ∈ tr) ↔
      g.reaches r p := by
    intro p
    rw [Finset.mem_filter, Finset.mem_range, hmem p]
    constructor
    · exact fun h => h.2
    · intro h
      obtain ⟨m, hm, -⟩ := hdag.1 p h
      exact ⟨lt_of_get hm, h⟩
  have hrec : ∀ n, n ≠ r → tr.count (some n) =
      Finset.sum ((Finset.range g.nodes.length).filter (fun p => some p ∈ tr))
        (fun p => tr.count (some p) * (g.ch_of p).count (some n)) := by
    intro n hn
    have hc := traversal_count ttr n
    rw [Finset.sum_filter_of_ne]
    · simpa [List.count_cons, Ne.symm hn] using hc
    · intro p _ hne
      by_contra hp
      exact hne (by rw [List.count_eq_zero_of_not_mem hp, zero_mul])
  have hone : ∀ p, g.reaches r p → 1 ≤ tr.count (some p) :=
    fun p hp => List.count_pos_iff.2 ((hmem p).2 hp)
  have hle : ∀ n, ∀ p ∈ (Finset.range g.nodes.length).filter (fun p => some p ∈ tr),
      (g.ch_of p).count (some n) ≤ tr.count (some p) * (g.ch_of p).count (some n) :=
    fun n p hp => Nat.le_mul_of_pos_left _ (hone p ((hR p).1 hp))
  refine ⟨tr, (Finset.range g.nodes.length).filter (fun p => some p ∈ tr), ?_, hR, ?_,
    traversal_root_once hdag ttr, ?_, hrec, ?_, ?_⟩
  · intro fuel hf
    obtain ⟨w, k⟩ := hterm fuel hf
    obtain ⟨l, tl, rfl⟩ := accept_traversal g _ _ _ _ k
    rw [k, traversal_unique ttr _ tl]
    simp
  · intro e
    constructor
    · intro he
      obtain ⟨i, rfl⟩ := traversal_all_some ttr e he
      exact ⟨i, rfl, (hmem i).1 he⟩
    · rintro ⟨p, rfl, hp⟩
      exact (hmem p).2 hp
  · intro n
    obtain ⟨ps, hnd, hps, hlen⟩ := root_paths ttr (fun t => decide (t = n))
    refine ⟨ps, hnd, ?_, by rw [count_eq_hits, hlen]⟩
    intro ks
    rw [hps ks]
    constructor
    · rintro ⟨t, ht, hT⟩
      rw [ht, of_decide_eq_true hT]
    · intro ht
      exact ⟨n, ht, by simp⟩
  · intro n hn
    rw [hrec n hn]
    exact Finset.sum_le_sum (hle n)
  · intro n hn
    rw [hrec n hn, eq_comm, Finset.sum_eq_sum_iff_of_le (hle n)]
    constructor
    · intro h p hp he
      have h2 : 0 < (g.ch_of p).count (some n) := List.count_pos_iff.2 (edge_iff_mem.1 he)
      have h3 := h p ((hR p).2 hp)
      have h4 : 1 * (g.ch_of p).count (some n) =
          tr.count (some p) * (g.ch_of p).count (some n) := by
        rw [one_mul]; exact h3
      exact (Nat.eq_of_mul_eq_mul_right h2 h4).symm
    · intro h p hp
      by_cases hz : (g.ch_of p).count (some n) = 0
      · rw [hz, mul_zero]
      · have he : g.edge p n :=
          edge_iff_mem.2 (List.count_pos_iff.1 (Nat.pos_of_ne_zero hz))
        rw [h p ((hR p).1 hp) he, one_mul]

/-- An instance: the child-first traversal of the graph of `(x * x) + (x * x)`. -/
theorem visits_per_edge_witness :
    shared_graph.dag_from 2 ∧
    ∃ (tr : List Expr) (R : Finset Nat),
      (∀ fuel, shared_graph.nodes.length ≤ fuel →
        Expr.accept shared_graph fuel (some 2) ⟨Order.child_first, []⟩ =
          .ok ⟨Order.child_first, tr⟩) ∧
      (∀ p, p ∈ R ↔ shared_graph.reaches 2 p) ∧
      (∀ e, e ∈ tr ↔ ∃ p, e = some p ∧ shared_graph.reaches 2 p) ∧
      tr.count (some 2) = 1 ∧
      (∀ n, ∃ ps : List (List Nat), ps.Nodup ∧
        (∀ ks, ks ∈ ps ↔ shared_graph.walk 2 ks = some n) ∧ tr.count (some n) = ps.length) ∧
      (∀ n, n ≠ 2 → tr.count (some n) =
        Finset.sum R (fun p => tr.count (some p) * (shared_graph.ch_of p).count (some n))) ∧
      (∀ n, n ≠ 2 →
        Finset.sum R (fun p => (shared_graph.ch_of p).count (some n)) ≤ tr.count (some n)) ∧
      (∀ n, n ≠ 2 →
        (tr.count (some n) = Finset.sum R (fun p => (shared_graph.ch_of p).count (some n)) ↔
          ∀ p, shared_graph.reaches 2 p → shared_graph.edge p n → tr.count (some p) = 1)) :=
  have hdag : shared_graph.dag_from 2 := dag_of_children_below (by decide) (by decide)
  ⟨hdag, visits_per_edge shared_graph 2 hdag Order.child_first⟩

/-- C18: on an acyclic graph rooted at a non-empty handle, `accept` returns in both orders,
and for every node `n` the number of times it visits `n`, the same in both orders, is the
number of distinct paths of child edges from the root to `n`: `ps` lists exactly these
paths without repetition. The root is visited once, the two sequences are permutations of
one another, and their length is the number of all paths from the root, the size of the
tree the graph unfolds to. -/
theorem visits_count_paths (g : Graph) (r : Nat) (hdag : g.dag_from r) :
    ∃ pre post,
      (∀ fuel, g.nodes.length ≤ fuel →
        Expr.accept g fuel (some r) ⟨Order.parent_first, []⟩ = .ok ⟨Order.parent_first, pre⟩ ∧
        Expr.accept g fuel (some r) ⟨Order.child_first, []⟩ = .ok ⟨Order.child_first, post⟩) ∧
      (∀ n, ∃ ps : List (List Nat), ps.Nodup ∧ (∀ ks, ks ∈ ps ↔ g.walk r ks = some n) ∧
        pre.count (some n) = ps.length ∧ post.count (some n) = ps.length) ∧
      pre.count (some r) = 1 ∧ post.count (some r) = 1 ∧
      pre.Perm post ∧
      (∃ ps : List (List Nat), ps.Nodup ∧ (∀ ks, ks ∈ ps ↔ ∃ t, g.walk r ks = some t) ∧
        pre.length = ps.length ∧ post.length = ps.length) := by
  have hterm : ∀ fuel, g.nodes.length ≤ fuel → ∀ v, ∃ v', Expr.accept g fuel (some r) v = .ok v' :=
    fun fuel hf => accept_terminates hdag fuel ∅ r Relation.ReflTransGen.refl
      (by simp) (by simp) (by simpa using hf)
  obtain ⟨v1, h1⟩ := hterm g.nodes.length (le_refl _) ⟨Order.parent_first, []⟩
  obtain ⟨v2, h2⟩ := hterm g.nodes.length (le_refl _) ⟨Order.child_first, []⟩
  obtain ⟨pre, tpre, -⟩ := accept_traversal g _ _ _ _ h1
  obtain ⟨post, tpost, -⟩ := accept_traversal g _ _ _ _ h2
  have hperm : pre.Perm post := traversal_perm tpre post tpost
  have hpaths : ∀ n, ∃ ps : List (List Nat), ps.Nodup ∧
      (∀ ks, ks ∈ ps ↔ g.walk r ks = some n) ∧
      pre.count (some n) = ps.length ∧ post.count (some n) = ps.length := by
    intro n
    obtain ⟨ps, hnd, hmem, hlen⟩ := root_paths tpre (fun t => decide (t = n))
    refine ⟨ps, hnd, ?_, ?_, ?_⟩
    · intro ks
      rw [hmem ks]
      constructor
      · rintro ⟨t, ht, hT⟩
        rw [ht, of_decide_eq_true hT]
      · intro ht
        exact ⟨n, ht, by simp⟩
    · rw [count_eq_hits, hlen]
    · rw [count_eq_hits, ← hperm.countP_eq, hlen]
  have hroot : pre.count (some r) = 1 := by
    obtain ⟨ps, hnd, hmem, hlen, -⟩ := hpaths r
    rw [hlen]
    have hnil : [] ∈ ps := (hmem []).2 rfl
    have hall : ∀ ks ∈ ps, ks = [] := by
      intro ks hks
      cases ks with
      | nil => rfl
      | cons k ks =>
        exact absurd (walk_edge ks k r r ((hmem _).1 hks))
          (hdag.2 r Relation.ReflTransGen.refl)
    have hrep : ps = List.replicate ps.length [] := List.eq_replicate_iff.2 ⟨rfl, hall⟩
    have hle : ps.length ≤ 1 := by
      rw [hrep] at hnd
      exact List.nodup_replicate.1 hnd
    have hpos : 0 < ps.length := List.length_pos_of_mem hnil
    omega
  refine ⟨pre, post, ?_, hpaths, hroot,
    by rw [count_eq_hits, ← hperm.countP_eq, ← count_eq_hits]; exact hroot, hperm, ?_⟩
  · intro fuel hf
    obtain ⟨w1, k1⟩ := hterm fuel hf ⟨Order.parent_first, []⟩
    obtain ⟨w2, k2⟩ := hterm fuel hf ⟨Order.child_first, []⟩
    obtain ⟨l1, t1, rfl⟩ := accept_traversal g _ _ _ _ k1
    obtain ⟨l2, t2, rfl⟩ := accept_traversal g _ _ _ _ k2
    rw [k1, k2, traversal_unique tpre _ t1, traversal_unique tpost _ t2]
    exact ⟨rfl, rfl⟩
  · obtain ⟨ps, hnd, hmem, hlen⟩ := root_paths tpre (fun _ => true)
    have hl : pre.countP (hits (fun _ => true)) = pre.length := by
      rw [List.countP_eq_length]
      intro e he
      obtain ⟨i, rfl⟩ := traversal_all_some tpre e he
      rfl
    refine ⟨ps, hnd, ?_, by rw [← hl, hlen], by rw [← hperm.length_eq, ← hl, hlen]⟩
    intro ks
    rw [hmem ks]
    simp

/-- An instance: in the graph of `(x * x) + (x * x)`, from the root `add`. -/
theorem visits_count_paths_witness :
    shared_graph.dag_from 2 ∧
    ∃ pre post,
      (∀ fuel, shared_graph.nodes.length ≤ fuel →
        Expr.accept shared_graph fuel (some 2) ⟨Order.parent_first, []⟩ =
          .ok ⟨Order.parent_first, pre⟩ ∧
        Expr.accept shared_graph fuel (some 2) ⟨Order.child_first, []⟩ =
          .ok ⟨Order.child_first, post⟩) ∧
      (∀ n, ∃ ps : List (List Nat), ps.Nodup ∧
        (∀ ks, ks ∈ ps ↔ shared_graph.walk 2 ks = some n) ∧
        pre.count (some n) = ps.length ∧ post.count (some n) = ps.length) ∧
      pre.count (some 2) = 1 ∧ post.count (some 2) = 1 ∧
      pre.Perm post ∧
      (∃ ps : List (List Nat), ps.Nodup ∧
        (∀ ks, ks ∈ ps ↔ ∃ t, shared_graph.walk 2 ks = some t) ∧
        pre.length = ps.length ∧ post.length = ps.length) :=
  have hdag : shared_graph.dag_from 2 := dag_of_children_below (by decide) (by decide)
  ⟨hdag, visits_count_paths shared_graph 2 hdag⟩

end Tlang
